import Mathlib

/-!
Shallow embedding of the cross-source event reconciliation engine of
`merge_streams.py`: team extraction (`extract_teams`), name normalization
(`normalize_team_name`), similarity scoring (`teams_match`, built on
`difflib.SequenceMatcher.ratio`), the greedy one-to-one assignment loop
(`merge_events`), and the merged-record builder.

Python strings are modelled as `List Char`; floats as `ℚ`.
-/

/-- Python strings are modelled as lists of characters. -/
abbrev Str := List Char

/-- Whitespace as recognized by Python `str.split()` / `str.strip()`
(the ASCII subset; the source only ever feeds it event titles). -/
def isPySpace (c : Char) : Bool :=
  c = ' ' ∨ c = '\t' ∨ c = '\n' ∨ c = '\r' ∨ c = '\x0b' ∨ c = '\x0c'

/-- The uppercase-to-lowercase table used to model Python `str.lower`:
the ASCII letters, plus the uppercase characters of the source's own
vocabulary (`'Ü'` of "Türkiye"). -/
def lowerTable : List (Char × Char) :=
  [('A', 'a'), ('B', 'b'), ('C', 'c'), ('D', 'd'), ('E', 'e'), ('F', 'f'),
   ('G', 'g'), ('H', 'h'), ('I', 'i'), ('J', 'j'), ('K', 'k'), ('L', 'l'),
   ('M', 'm'), ('N', 'n'), ('O', 'o'), ('P', 'p'), ('Q', 'q'), ('R', 'r'),
   ('S', 's'), ('T', 't'), ('U', 'u'), ('V', 'v'), ('W', 'w'), ('X', 'x'),
   ('Y', 'y'), ('Z', 'z'), ('Ü', 'ü')]

/-- Python `str.lower` at the level of one character.  A character may
lowercase to several characters (Python maps `'İ'` U+0130 to "i" followed
by the combining dot U+0307, which is why the source's replacement table
has two spellings of "türkiye"); characters outside the table are fixed. -/
def pyCharLower (c : Char) : List Char :=
  if c = 'İ' then ['i', '̇']
  else
    match lowerTable.lookup c with
    | some d => [d]
    | none => [c]

/-- Python `str.lower` on a whole string. -/
def pyLower (s : Str) : Str := s.flatMap pyCharLower

/-- Does `pat` occur at the start of `s`? (`str.startswith`). -/
def startsWith : Str → Str → Bool
  | [], _ => true
  | _ :: _, [] => false
  | p :: ps, c :: cs => p = c ∧ startsWith ps cs

/-- Python `pat in s` for a nonempty pattern: does `pat` occur anywhere in `s`? -/
def hasOccur (pat : Str) : Str → Bool
  | [] => startsWith pat []
  | c :: cs => startsWith pat (c :: cs) ∨ hasOccur pat cs

/-- The scanning loop of Python `s.replace(old, new)`, with explicit fuel
(each step consumes at least one character, so `s.length` fuel always
suffices; the zero-fuel branch is never reached from `pyReplace`). -/
def replaceGo (old new : Str) : ℕ → Str → Str
  | _, [] => []
  | 0, c :: cs => c :: cs
  | f + 1, c :: cs =>
    if startsWith old (c :: cs) ∧ old ≠ [] then
      new ++ replaceGo old new f (cs.drop (old.length - 1))
    else
      c :: replaceGo old new f cs

/-- Python `s.replace(old, new)` for a nonempty `old`: replace every
non-overlapping occurrence, scanning left to right. -/
def pyReplace (old new s : Str) : Str := replaceGo old new s.length s

/-- The scanning loop of Python `s.split(sep)`, with explicit fuel;
`acc` holds the (reversed) characters of the current chunk. -/
def splitGo (sep : Str) : ℕ → Str → Str → List Str
  | _, [], acc => [acc.reverse]
  | 0, c :: cs, acc => [acc.reverse ++ c :: cs]
  | f + 1, c :: cs, acc =>
    if startsWith sep (c :: cs) ∧ sep ≠ [] then
      acc.reverse :: splitGo sep f (cs.drop (sep.length - 1)) []
    else
      splitGo sep f cs (c :: acc)

/-- Python `s.split(sep)` for a nonempty separator: split at every
non-overlapping occurrence, scanning left to right. -/
def pySplitOn (sep s : Str) : List Str := splitGo sep s.length s []

/-- Python `s.strip()`: drop leading and trailing whitespace. -/
def pyStrip (s : Str) : Str :=
  ((s.dropWhile isPySpace).reverse.dropWhile isPySpace).reverse

/-- Python `s.split()` (no argument): the maximal whitespace-free nonempty
chunks of `s`; `acc` holds the (reversed) characters of the current chunk. -/
def pyWordsAux : Str → Str → List Str
  | [], acc => if acc = [] then [] else [acc.reverse]
  | c :: cs, acc =>
    if isPySpace c then
      if acc = [] then pyWordsAux cs [] else acc.reverse :: pyWordsAux cs []
    else
      pyWordsAux cs (c :: acc)

/-- Python `s.split()` (no argument). -/
def pyWords (s : Str) : List Str := pyWordsAux s []

/-- Python `' '.join(ws)`. -/
def joinSpaces : List Str → Str
  | [] => []
  | [w] => w
  | w :: ws => w ++ ' ' :: joinSpaces ws

/-- The fixed replacement table of `normalize_team_name`, in the source's
insertion order. -/
def replacements : List (Str × Str) :=
  [("republic".toList, []),
   ("rep.".toList, []),
   ("türkiye".toList, "turkey".toList),
   (['t', 'ü', 'r', 'k', 'i', '̇', 'y', 'e'], "turkey".toList)]

/-- The replacement pass of `normalize_team_name`: apply each table entry
in order, each one replacing all its occurrences. -/
def applyReplacements (s : Str) : Str :=
  replacements.foldl (fun acc p => pyReplace p.1 p.2 acc) s

/-- `normalize_team_name`: lowercase, apply the replacement table,
collapse whitespace runs to single spaces, and strip. -/
def normalize_team_name (name : Str) : Str :=
  pyStrip (joinSpaces (pyWords (applyReplacements (pyLower name))))

/-- The fixed, ordered separator list of `extract_teams`. -/
def separators : List Str :=
  [" vs. ".toList, " vs ".toList, " at ".toList, " v ".toList]

/-- The separator loop of `extract_teams`: try each separator in order;
the first one present in the title whose split yields exactly two parts
wins; a separator that is present but yields a different number of parts
is skipped (the loop continues). -/
def extractLoop (tl : Str) : List Str → Option Str × Option Str
  | [] => (none, none)
  | sep :: rest =>
    if hasOccur sep tl then
      let parts := pySplitOn sep tl
      if parts.length = 2 then
        (some (normalize_team_name (pyStrip (parts.getD 0 []))),
         some (normalize_team_name (pyStrip (parts.getD 1 []))))
      else extractLoop tl rest
    else extractLoop tl rest

/-- `extract_teams`: lowercase the title and run the separator loop;
`(none, none)` is the unparsable sentinel. -/
def extract_teams (title : Str) : Option Str × Option Str :=
  extractLoop (pyLower title) separators

/-!
## `difflib.SequenceMatcher` (CPython), specialized to character sequences

`teams_match` scores partial matches with `SequenceMatcher(None, a, b).ratio()`.
We embed the CPython algorithm: `b2j` (positions of each character of `b`,
with the autojunk "popular" pruning), `find_longest_match` (the `j2len`
dynamic programming sweep plus the two extension loops; `bjunk` is empty
because `isjunk` is `None`, so the junk tests and the junk extension loops
are vacuous), the recursive matching-blocks decomposition (only the total
matched size matters for `ratio`), and `_calculate_ratio`.
-/

/-- All indices `j` with `b[j] = c`, ascending (the `b2j` position lists). -/
def positionsFrom (c : Char) : ℕ → Str → List ℕ
  | _, [] => []
  | n, d :: ds =>
    if d = c then n :: positionsFrom c (n + 1) ds else positionsFrom c (n + 1) ds

/-- The autojunk rule of `SequenceMatcher.__chain_b`: when `b` has at least
200 elements, elements occurring more than `len(b) / 100 + 1` times are
"popular" and dropped from `b2j`. -/
def bPopular (b : Str) (c : Char) : Bool :=
  200 ≤ b.length ∧ b.length / 100 + 1 < b.count c

/-- `b2j[c]`: positions of `c` in `b`, empty for popular elements. -/
def b2j (b : Str) (c : Char) : List ℕ :=
  if bPopular b c then [] else positionsFrom c 0 b

/-- One `j` step of the `j2len` sweep in `find_longest_match`: look up the
chain length ending at `j - 1` in the previous row (`Python j2len.get(j-1, 0)`,
which is 0 when `j = 0`), record the extended chain in the new row, and take
the new chain as best when strictly longer. -/
def flmInner (old : ℕ → ℕ) (i : ℕ) : (ℕ → ℕ) × (ℕ × ℕ × ℕ) → ℕ → (ℕ → ℕ) × (ℕ × ℕ × ℕ)
  | (row, best), j =>
    let k := (if j = 0 then 0 else old (j - 1)) + 1
    let row2 := fun x => if x = j then k else row x
    if best.2.2 < k then (row2, (i + 1 - k, j + 1 - k, k)) else (row2, best)

/-- One `i` row of the `find_longest_match` sweep: fold `flmInner` over the
in-window positions of `a[i]` in `b` (the CPython loop's `continue` below
`blo` and `break` at `bhi` amount to this filter, since positions ascend). -/
def flmRow (a b : Str) (blo bhi : ℕ) (st : (ℕ → ℕ) × (ℕ × ℕ × ℕ)) (i : ℕ) :
    (ℕ → ℕ) × (ℕ × ℕ × ℕ) :=
  let js := (b2j b (a.getD i 'a')).filter (fun j => decide (blo ≤ j) && decide (j < bhi))
  (js.foldl (flmInner st.1 i) ((fun _ => 0), st.2))

/-- The `j2len` sweep of `find_longest_match` over rows `alo, ..., ahi - 1`,
returning the best `(i, j, size)` found (initially `(alo, blo, 0)`). -/
def flmCore (a b : Str) (alo ahi blo bhi : ℕ) : ℕ × ℕ × ℕ :=
  ((List.range' alo (ahi - alo)).foldl (flmRow a b blo bhi)
    ((fun _ => 0), (alo, blo, 0))).2

/-- The leftward extension loop of `find_longest_match` (fuelled; each step
decreases `i` while `alo < i`, so `i` fuel always suffices). -/
def extLeftGo (a b : Str) (alo blo : ℕ) : ℕ → ℕ × ℕ × ℕ → ℕ × ℕ × ℕ
  | 0, st => st
  | f + 1, (i, j, k) =>
    if alo < i ∧ blo < j ∧ a.getD (i - 1) 'a' = b.getD (j - 1) 'a' then
      extLeftGo a b alo blo f (i - 1, j - 1, k + 1)
    else (i, j, k)

/-- The rightward extension loop of `find_longest_match` (fuelled; each step
increases `j + k` while `j + k < bhi`, so `bhi` fuel always suffices). -/
def extRightGo (a b : Str) (ahi bhi : ℕ) : ℕ → ℕ × ℕ × ℕ → ℕ × ℕ × ℕ
  | 0, st => st
  | f + 1, (i, j, k) =>
    if i + k < ahi ∧ j + k < bhi ∧ a.getD (i + k) 'a' = b.getD (j + k) 'a' then
      extRightGo a b ahi bhi f (i, j, k + 1)
    else (i, j, k)

/-- `SequenceMatcher.find_longest_match` on the windows
`a[alo:ahi]`, `b[blo:bhi]`: the DP sweep, then the extension loops. -/
def findLongestMatch (a b : Str) (alo ahi blo bhi : ℕ) : ℕ × ℕ × ℕ :=
  extRightGo a b ahi bhi bhi (extLeftGo a b alo blo ahi (flmCore a b alo ahi blo bhi))

/-- Total size of all matching blocks of `get_matching_blocks` (fuelled;
the recursion depth is bounded by the total window size, so the fuel used
by `ratioQ` always suffices).  Only this total enters `ratio`. -/
def matchTotal (a b : Str) : ℕ → ℕ → ℕ → ℕ → ℕ → ℕ
  | 0, _, _, _, _ => 0
  | f + 1, alo, ahi, blo, bhi =>
    let r := findLongestMatch a b alo ahi blo bhi
    if r.2.2 = 0 then 0
    else
      matchTotal a b f alo r.1 blo r.2.1 + r.2.2 +
        matchTotal a b f (r.1 + r.2.2) ahi (r.2.1 + r.2.2) bhi

/-- `SequenceMatcher(None, a, b).ratio()`: `2 * M / T` where `M` is the
total matched size and `T` the total length, and 1 when both are empty
(`_calculate_ratio`). -/
def ratioQ (a b : Str) : ℚ :=
  let m := matchTotal a b (a.length + b.length + 1) 0 a.length 0 b.length
  if a.length + b.length = 0 then 1
  else (2 * (m : ℚ)) / ((a.length + b.length : ℕ) : ℚ)

/-- Computation bridge: `ratioQ` as an unnormalized rational literal
(`mkRat` reduces in the kernel, unlike the field operations of `ℚ`). -/
theorem ratioQ_eq_mkRat (a b : Str) (h : a.length + b.length ≠ 0) :
    ratioQ a b =
      mkRat (2 * (matchTotal a b (a.length + b.length + 1) 0 a.length 0 b.length : ℕ))
        (a.length + b.length) := by
  rw [ratioQ, if_neg h, Rat.mkRat_eq_div]
  push_cast
  ring

/-- `teams_match`: extract both team pairs; fail with `(false, 0.0)` when
either extraction failed; report exact forward equality as `(true, 1.0)`
and exact reversed equality as `(true, 0.95)`; otherwise score the four
similarity ratios.  When the extractions succeed both components are
`some` (see `extract_teams`), so the `getD []` unwrapping below is never
taken on `none`. -/
def teams_match (title1 title2 : Str) : Bool × ℚ :=
  let teams1 := extract_teams title1
  let teams2 := extract_teams title2
  if teams1.1 = none ∨ teams2.1 = none then (false, 0)
  else if teams1 = teams2 then (true, 1)
  else if teams1 = (teams2.2, teams2.1) then (true, 95/100)
  else
    let team1_match := ratioQ (teams1.1.getD []) (teams2.1.getD [])
    let team2_match := ratioQ (teams1.2.getD []) (teams2.2.getD [])
    let team1_reverse := ratioQ (teams1.1.getD []) (teams2.2.getD [])
    let team2_reverse := ratioQ (teams1.2.getD []) (teams2.1.getD [])
    let forward_score := (team1_match + team2_match) / 2
    let reverse_score := (team1_reverse + team2_reverse) / 2
    let best_score := max forward_score reverse_score
    if 7/10 ≤ best_score then (true, best_score)
    else if 9/10 ≤ team1_match ∨ 9/10 ≤ team2_match ∨
        9/10 ≤ team1_reverse ∨ 9/10 ≤ team2_reverse then (true, best_score)
    else (false, best_score)

/-!
## The greedy assignment engine and the merged-record builder

Input records are the dictionaries produced by the extract collaborators:
`title` is accessed with mandatory indexing in `merge_events`, every other
field with `.get` and a default, so `title` is a mandatory field and the
rest are optional.
-/

/-- A StreamBTW (source A) event record. -/
structure SbEvent where
  title : Str
  sport : Option Str
  thumbnail : Option Str
  m3u8_url : Option Str
  iframe_url : Option Str
  headers : Option (List (Str × Str))
deriving DecidableEq

/-- A PTV (source B) event record. -/
structure PtvEvent where
  title : Str
  category : Option Str
  tag : Option Str
  thumbnail : Option Str
  m3u8_url : Option Str
  iframe_url : Option Str
  starts_at : Option Str
  ends_at : Option Str
deriving DecidableEq

/-- The `sources.streambtw` block of a merged record. -/
structure SbBlock where
  thumbnail : Str
  m3u8_url : Str
  iframe_url : Str
  headers : List (Str × Str)
deriving DecidableEq

/-- The `sources.ptv` block of a merged record. -/
structure PtvBlock where
  thumbnail : Str
  m3u8_url : Str
  iframe_url : Str
  tag : Str
  starts_at : Str
  ends_at : Str
deriving DecidableEq

/-- A merged event record. -/
structure MergedEvent where
  title : Str
  alternative_title : Str
  match_confidence : ℚ
  sport : Str
  category : Str
  source_streambtw : SbBlock
  source_ptv : PtvBlock
  all_m3u8_urls : List Str
  all_iframes : List Str
deriving DecidableEq

/-- Round half to even (Python `round` on a value exactly representable),
at integer precision. -/
def roundHalfEven (q : ℚ) : ℤ :=
  if q - ⌊q⌋ < 1/2 then ⌊q⌋
  else if 1/2 < q - ⌊q⌋ then ⌊q⌋ + 1
  else if ⌊q⌋ % 2 = 0 then ⌊q⌋ else ⌊q⌋ + 1

/-- Python `round(q, 2)`. -/
def pyRound2 (q : ℚ) : ℚ := (roundHalfEven (q * 100) : ℚ) / 100

/-- The list comprehension `[url for url in urls if url]`: keep values that
are neither `None` nor empty. -/
def keepTruthy : List (Option Str) → List Str
  | [] => []
  | none :: rest => keepTruthy rest
  | some u :: rest => if u = [] then keepTruthy rest else u :: keepTruthy rest

/-- The merged-record builder: the dictionary literal of `merge_events`,
with each `.get(key, default)` access rendered as `Option.getD`. -/
def mkMerged (sb : SbEvent) (bm : PtvEvent) (best_score : ℚ) : MergedEvent :=
  { title := sb.title
    alternative_title := bm.title
    match_confidence := pyRound2 best_score
    sport := sb.sport.getD []
    category := bm.category.getD []
    source_streambtw :=
      { thumbnail := sb.thumbnail.getD []
        m3u8_url := sb.m3u8_url.getD []
        iframe_url := sb.iframe_url.getD []
        headers := sb.headers.getD [] }
    source_ptv :=
      { thumbnail := bm.thumbnail.getD []
        m3u8_url := bm.m3u8_url.getD []
        iframe_url := bm.iframe_url.getD []
        tag := bm.tag.getD []
        starts_at := bm.starts_at.getD []
        ends_at := bm.ends_at.getD [] }
    all_m3u8_urls := keepTruthy [sb.m3u8_url, bm.m3u8_url]
    all_iframes := keepTruthy [sb.iframe_url, bm.iframe_url] }

/-- The inner candidate loop of `merge_events`: fold over the pool with the
running `(best_match, best_score, best_index)` state (initially
`(None, 0, -1)`), the position counter `i`, and the strict-improvement
update `is_match and score > best_score`. -/
def findBest (t : Str) : ℕ → (Option PtvEvent × ℚ × ℤ) → List PtvEvent →
    Option PtvEvent × ℚ × ℤ
  | _, st, [] => st
  | i, st, e :: rest =>
    let r := teams_match t e.title
    findBest t (i + 1) (if r.1 = true ∧ st.2.1 < r.2 then (some e, r.2, (i : ℤ)) else st) rest

/-- `merge_events`: walk `streambtw_events` in order; for each record find
the best-scoring matching record still in the PTV pool; on success emit the
merged record and remove the winner from the pool (`pop(best_index)`), else
append the record to `unmatched_streambtw`; the final pool is
`unmatched_ptv`.  (The Python guard `if best_match:` is dict truthiness,
which coincides with `is not None` because every event dictionary carries
at least its mandatory `title` key.) -/
def merge_events : List SbEvent → List PtvEvent →
    List MergedEvent × List SbEvent × List PtvEvent
  | [], pool => ([], [], pool)
  | sb :: rest, pool =>
    match findBest sb.title 0 (none, 0, -1) pool with
    | (some bm, best_score, best_index) =>
      let r := merge_events rest (pool.eraseIdx best_index.toNat)
      (mkMerged sb bm best_score :: r.1, r.2.1, r.2.2)
    | (none, _, _) =>
      let r := merge_events rest pool
      (r.1, sb :: r.2.1, r.2.2)

/-!
## Helper lemmas about `extract_teams`
-/

/-- The separator loop returns the sentinel or a both-`some` pair. -/
theorem extractLoop_shape (tl : Str) :
    ∀ seps, extractLoop tl seps = (none, none) ∨
      ∃ a b, extractLoop tl seps = (some a, some b) := by
  intro seps
  induction seps with
  | nil => exact Or.inl rfl
  | cons sep rest ih =>
    rw [extractLoop]
    by_cases h1 : hasOccur sep tl = true
    · simp only [h1, if_true]
      by_cases h2 : (pySplitOn sep tl).length = 2
      · simp only [h2, if_true]
        exact Or.inr ⟨_, _, rfl⟩
      · simp only [h2, if_false]
        exact ih
    · simp only [h1, if_false]
      exact ih

/-- C10: `extract_teams` never returns a mixed pair — its result is either
the sentinel `(None, None)` or a pair with both components present, so
checking only the first component of each pair suffices to detect
extraction failure. -/
theorem extract_teams_no_mixed_pair (t : Str) :
    extract_teams t = (none, none) ∨
      ∃ a b, extract_teams t = (some a, some b) :=
  extractLoop_shape (pyLower t) separators

/-- C6: if extraction fails on either title, `teams_match` returns
`(false, 0.0)` regardless of textual similarity, even for identical
strings; the sentinel propagates as a non-match, never an exception. -/
theorem teams_match_unparsable (t1 t2 : Str)
    (h : (extract_teams t1).1 = none ∨ (extract_teams t2).1 = none) :
    teams_match t1 t2 = (false, 0) := by
  rw [teams_match, if_pos h]

/-- C6 witness: the unparsable title "hello" never matches, not even
against the identical string. -/
theorem teams_match_unparsable_witness :
    teams_match ("hello".toList) ("hello".toList) = (false, 0) :=
  teams_match_unparsable ("hello".toList) ("hello".toList) (Or.inl (by decide))

/-- C8: two successfully extracted team pairs that are exact mirror images
of each other (but not equal in forward order) score exactly
`(true, 0.95)`, independently of the similarity ratio. -/
theorem teams_match_reversed (t1 t2 : Str) (a b c d : Str)
    (h1 : extract_teams t1 = (some a, some b))
    (h2 : extract_teams t2 = (some c, some d))
    (hrev : a = d ∧ b = c)
    (hfwd : ¬(a = c ∧ b = d)) :
    teams_match t1 t2 = (true, 95/100) := by
  rw [teams_match, h1, h2]
  rw [if_neg (by simp), if_neg (by simp [Prod.ext_iff]; intro hac; exact fun hbd => hfwd ⟨hac, hbd⟩)]
  rw [if_pos (by simp [Prod.ext_iff, hrev.1, hrev.2])]

/-- C8 witness: the spec's concrete example, a pure home/away swap. -/
theorem teams_match_reversed_witness :
    teams_match ("Real Madrid vs Barcelona".toList) ("Barcelona vs Real Madrid".toList)
      = (true, 95/100) :=
  teams_match_reversed _ _ ("real madrid".toList) ("barcelona".toList)
    ("barcelona".toList) ("real madrid".toList)
    (by decide) (by decide) (by decide) (by decide)

/-!
## Helper lemmas about `pyStrip` (trimmed output)
-/

/-- The head surviving a `dropWhile` fails the predicate. -/
theorem dropWhile_head_false (p : Char → Bool) :
    ∀ (l : Str) (c : Char) (cs : Str), l.dropWhile p = c :: cs → p c = false := by
  intro l
  induction l with
  | nil => intro c cs h; simp at h
  | cons d ds ih =>
    intro c cs h
    rw [List.dropWhile_cons] at h
    by_cases hd : p d = true
    · exact ih c cs (by rwa [if_pos hd] at h)
    · rw [if_neg hd] at h
      cases h
      exact Bool.eq_false_iff.mpr hd

/-- `dropWhile` is the identity when the head (if any) fails the predicate. -/
theorem dropWhile_of_head_false (p : Char → Bool) (l : Str)
    (h : ∀ c cs, l = c :: cs → p c = false) : l.dropWhile p = l := by
  cases l with
  | nil => rfl
  | cons c cs => rw [List.dropWhile_cons, h c cs rfl]; simp

/-- A nonempty `dropWhile` keeps the last element. -/
theorem getLast?_dropWhile (p : Char → Bool) :
    ∀ l : Str, l.dropWhile p ≠ [] → (l.dropWhile p).getLast? = l.getLast? := by
  intro l
  induction l with
  | nil => intro h; simp at h
  | cons c cs ih =>
    intro h
    rw [List.dropWhile_cons] at h ⊢
    by_cases hc : p c = true
    · rw [if_pos hc] at h ⊢
      rw [ih h]
      have hcs : cs ≠ [] := by
        intro hnil
        rw [hnil] at h
        simp at h
      cases cs with
      | nil => exact absurd rfl hcs
      | cons d ds => simp
    · simp only [hc] at h ⊢
      simp

/-- `pyStrip` is idempotent: its output carries no leading or trailing
whitespace, so stripping again is a no-op. -/
theorem pyStrip_pyStrip (s : Str) : pyStrip (pyStrip s) = pyStrip s := by
  unfold pyStrip
  set u := s.dropWhile isPySpace with hu
  set v := u.reverse.dropWhile isPySpace with hv
  have h1 : v.reverse.dropWhile isPySpace = v.reverse := by
    apply dropWhile_of_head_false
    intro c cs h
    have hne : v ≠ [] := by
      intro hnil
      rw [hnil] at h
      cases h
    have hchain : some c = u.head? := by
      have e1 : v.reverse.head? = some c := by rw [h]; rfl
      rw [List.head?_reverse] at e1
      rw [← e1, hv, getLast?_dropWhile _ _ (by rwa [← hv]), List.getLast?_reverse]
    cases hu2 : u with
    | nil => rw [hu2] at hchain; cases hchain
    | cons d ds =>
      rw [hu2] at hchain
      cases hchain
      exact dropWhile_head_false isPySpace s c ds (hu ▸ hu2)
  rw [h1, List.reverse_reverse]
  have h2 : v.dropWhile isPySpace = v := by
    apply dropWhile_of_head_false
    intro c cs h
    exact dropWhile_head_false isPySpace u.reverse c cs (hv ▸ h)
  rw [h2]

/-- The output of the normalizer is trimmed. -/
theorem normalize_team_name_trimmed (x : Str) :
    pyStrip (normalize_team_name x) = normalize_team_name x := by
  unfold normalize_team_name
  exact pyStrip_pyStrip _

/-- If no separator in the list both occurs and splits into exactly two
parts, the separator loop returns the sentinel. -/
theorem extractLoop_fail (tl : Str) :
    ∀ seps, (∀ sep ∈ seps,
        ¬(hasOccur sep tl = true ∧ (pySplitOn sep tl).length = 2)) →
      extractLoop tl seps = (none, none) := by
  intro seps
  induction seps with
  | nil => intro _; rfl
  | cons sep rest ih =>
    intro h
    rw [extractLoop]
    by_cases h1 : hasOccur sep tl = true
    · simp only [h1, if_true]
      have h2 : ¬(pySplitOn sep tl).length = 2 :=
        fun h2 => h sep (List.mem_cons_self sep rest) ⟨h1, h2⟩
      simp only [h2, if_false]
      exact ih (fun s hs => h s (List.mem_cons_of_mem sep hs))
    · simp only [h1, if_false]
      exact ih (fun s hs => h s (List.mem_cons_of_mem sep hs))

/-- The separator loop returns the sentinel or a pair of trimmed strings. -/
theorem extractLoop_trimmed (tl : Str) :
    ∀ seps, extractLoop tl seps = (none, none) ∨
      ∃ a b, extractLoop tl seps = (some a, some b) ∧
        pyStrip a = a ∧ pyStrip b = b := by
  intro seps
  induction seps with
  | nil => exact Or.inl rfl
  | cons sep rest ih =>
    rw [extractLoop]
    by_cases h1 : hasOccur sep tl = true
    · simp only [h1, if_true]
      by_cases h2 : (pySplitOn sep tl).length = 2
      · simp only [h2, if_true]
        exact Or.inr ⟨_, _, rfl, normalize_team_name_trimmed _, normalize_team_name_trimmed _⟩
      · simp only [h2, if_false]
        exact ih
    · simp only [h1, if_false]
      exact ih

/-- C4 (amended): `extract_teams` returns either the unparsable sentinel or
a pair of two trimmed — but possibly empty — strings, and whenever no
separator token is present, or no present separator token splits the
lowercased title into exactly two parts, it returns the sentinel.  (The
claim's non-emptiness guarantee fails: the source checks only the number
of split parts, never that they are non-empty; see the counterexample.) -/
theorem extract_teams_shape (t : Str) :
    (extract_teams t = (none, none) ∨
      ∃ a b, extract_teams t = (some a, some b) ∧ pyStrip a = a ∧ pyStrip b = b) ∧
    ((∀ sep ∈ separators,
        ¬(hasOccur sep (pyLower t) = true ∧ (pySplitOn sep (pyLower t)).length = 2)) →
      extract_teams t = (none, none)) :=
  ⟨extractLoop_trimmed (pyLower t) separators,
   fun h => extractLoop_fail (pyLower t) separators h⟩

/-- C4 counterexample: on the title `"a vs "` the extractor returns the
pair `("a", "")` — the separator is present and splits into exactly two
parts, one of which is empty — so the claimed "two non-empty strings or
sentinel" dichotomy is false. -/
theorem extract_teams_empty_part_counterexample :
    ¬(extract_teams ("a vs ".toList) = (none, none) ∨
      ∃ a b, extract_teams ("a vs ".toList) = (some a, some b) ∧
        a ≠ [] ∧ b ≠ []) := by
  have hval : extract_teams ("a vs ".toList) = (some ['a'], some []) := by decide
  rintro (h | ⟨a, b, heq, _, hb⟩)
  · rw [hval] at h
    cases h
  · rw [hval] at heq
    have : b = [] := by
      have := congrArg (fun p => p.2) heq
      simpa using this.symm
    exact hb this

/-- C4 witness: on a title where every separator either is absent or
splits into the wrong number of parts, extraction returns the sentinel. -/
theorem extract_teams_shape_witness :
    (extract_teams ("a vs b vs c".toList) = (none, none) ∨
      ∃ a b, extract_teams ("a vs b vs c".toList) = (some a, some b) ∧
        pyStrip a = a ∧ pyStrip b = b) ∧
    extract_teams ("a vs b vs c".toList) = (none, none) :=
  ⟨(extract_teams_shape ("a vs b vs c".toList)).1,
   (extract_teams_shape ("a vs b vs c".toList)).2 (by decide)⟩

/-- C3: when both extractions succeed and neither the exact-forward nor the
exact-reversed equality holds, the returned score is exactly
`bestScore = max(forward average, reversed average)` and the pair is
accepted iff `bestScore ≥ 0.70` or some single pairwise ratio is `≥ 0.90`. -/
theorem teams_match_partial_scoring (t1 t2 : Str) (a1 b1 a2 b2 : Str)
    (h1 : extract_teams t1 = (some a1, some b1))
    (h2 : extract_teams t2 = (some a2, some b2))
    (hfwd : ¬(a1 = a2 ∧ b1 = b2))
    (hrev : ¬(a1 = b2 ∧ b1 = a2)) :
    (teams_match t1 t2).2 =
      max ((ratioQ a1 a2 + ratioQ b1 b2) / 2) ((ratioQ a1 b2 + ratioQ b1 a2) / 2) ∧
    ((teams_match t1 t2).1 = true ↔
      (7/10 ≤ max ((ratioQ a1 a2 + ratioQ b1 b2) / 2) ((ratioQ a1 b2 + ratioQ b1 a2) / 2) ∨
       9/10 ≤ ratioQ a1 a2 ∨ 9/10 ≤ ratioQ b1 b2 ∨
       9/10 ≤ ratioQ a1 b2 ∨ 9/10 ≤ ratioQ b1 a2)) := by
  rw [teams_match, h1, h2]
  simp only [Option.getD_some]
  rw [if_neg (by simp)]
  rw [if_neg (by
    simp only [Prod.mk.injEq, Option.some.injEq]
    exact fun hh => hfwd hh)]
  rw [if_neg (by
    simp only [Prod.mk.injEq, Option.some.injEq]
    exact fun hh => hrev hh)]
  by_cases hb : (7:ℚ)/10 ≤
      max ((ratioQ a1 a2 + ratioQ b1 b2) / 2) ((ratioQ a1 b2 + ratioQ b1 a2) / 2)
  · rw [if_pos hb]
    exact ⟨rfl, by simp [hb]⟩
  · rw [if_neg hb]
    by_cases hr : (9:ℚ)/10 ≤ ratioQ a1 a2 ∨ 9/10 ≤ ratioQ b1 b2 ∨
        9/10 ≤ ratioQ a1 b2 ∨ 9/10 ≤ ratioQ b1 a2
    · rw [if_pos hr]
      exact ⟨rfl, by simp [hr]⟩
    · rw [if_neg hr]
      refine ⟨rfl, ?_⟩
      simp only [Bool.false_eq_true, false_iff]
      rintro (h | h)
      · exact hb h
      · exact hr h

/-- C3 witness: the boundary scenario.  The forward team ratios are 0.90
and 0.40, so the forward average 0.65 is below the 0.70 threshold, yet the
pair is accepted through the single-team rescue rule, and the returned
score is the best average 0.65 — not 1.0 or 0.95. -/
theorem teams_match_partial_scoring_witness :
    teams_match ("abcdefghij vs vwxyz".toList) ("abcdefghik vs vwabc".toList)
      = (true, 13/20) ∧
    ratioQ ("abcdefghij".toList) ("abcdefghik".toList) = 9/10 ∧
    ratioQ ("vwxyz".toList) ("vwabc".toList) = 2/5 ∧
    ¬(7:ℚ)/10 ≤ 13/20 := by
  have hr1 : ratioQ ("abcdefghij".toList) ("abcdefghik".toList) = 9/10 := by
    rw [ratioQ_eq_mkRat _ _ (by decide),
      show (9/10 : ℚ) = mkRat 9 10 by norm_num [Rat.mkRat_eq_div]]
    decide
  have hr2 : ratioQ ("vwxyz".toList) ("vwabc".toList) = 2/5 := by
    rw [ratioQ_eq_mkRat _ _ (by decide),
      show (2/5 : ℚ) = mkRat 2 5 by norm_num [Rat.mkRat_eq_div]]
    decide
  have hr3 : ratioQ ("abcdefghij".toList) ("vwabc".toList) = 2/5 := by
    rw [ratioQ_eq_mkRat _ _ (by decide),
      show (2/5 : ℚ) = mkRat 2 5 by norm_num [Rat.mkRat_eq_div]]
    decide
  have hr4 : ratioQ ("vwxyz".toList) ("abcdefghik".toList) = 0 := by
    rw [ratioQ_eq_mkRat _ _ (by decide),
      show (0 : ℚ) = mkRat 0 1 by norm_num [Rat.mkRat_eq_div]]
    decide
  have hmain := teams_match_partial_scoring
    ("abcdefghij vs vwxyz".toList) ("abcdefghik vs vwabc".toList)
    ("abcdefghij".toList) ("vwxyz".toList) ("abcdefghik".toList) ("vwabc".toList)
    (by decide) (by decide) (by decide) (by decide)
  rw [hr1, hr2, hr3, hr4] at hmain
  have hmax : max (((9:ℚ)/10 + 2/5) / 2) (((2:ℚ)/5 + 0) / 2) = 13/20 := by
    rw [max_eq_left (by norm_num)]
    norm_num
  rw [hmax] at hmain
  refine ⟨?_, hr1, hr2, by norm_num⟩
  rw [Prod.ext_iff]
  exact ⟨hmain.2.mpr (Or.inr (Or.inl (by norm_num))), hmain.1⟩

/-- `keepTruthy` on a two-element list is the "non-empty values only, in
order" filter over the defaulted values (a `None` and an empty string are
equally falsy). -/
theorem keepTruthy_pair (o1 o2 : Option Str) :
    keepTruthy [o1, o2] = ([o1.getD [], o2.getD []]).filter (fun u => !u.isEmpty) := by
  cases o1 with
  | none =>
    cases o2 with
    | none => rfl
    | some u =>
      by_cases hu : u = [] <;>
        simp [keepTruthy, hu, List.filter_cons]
  | some u =>
    cases o2 with
    | none =>
      by_cases hu : u = [] <;>
        simp [keepTruthy, hu, List.filter_cons]
    | some v =>
      by_cases hu : u = [] <;> by_cases hv : v = [] <;>
        simp [keepTruthy, hu, hv, List.filter_cons]

/-- C7: the merged record copies `title` from A and `alternativeTitle`
from B, rounds the confidence to two decimals, takes `category` from B and
`sport` from A (defaulting missing fields to empty), copies both metadata
blocks verbatim with defaults, and aggregates the URL lists as the
non-empty values in the fixed `[A, B]` order without deduplication: a URL
supplied identically by both sides appears twice.  The builder is a total
function, so it cannot fail on well-typed input. -/
theorem mkMerged_fields (a : SbEvent) (b : PtvEvent) (s : ℚ) :
    (mkMerged a b s).title = a.title ∧
    (mkMerged a b s).alternative_title = b.title ∧
    (mkMerged a b s).match_confidence = pyRound2 s ∧
    (mkMerged a b s).category = b.category.getD [] ∧
    (mkMerged a b s).sport = a.sport.getD [] ∧
    (mkMerged a b s).source_streambtw =
      ⟨a.thumbnail.getD [], a.m3u8_url.getD [], a.iframe_url.getD [], a.headers.getD []⟩ ∧
    (mkMerged a b s).source_ptv =
      ⟨b.thumbnail.getD [], b.m3u8_url.getD [], b.iframe_url.getD [],
       b.tag.getD [], b.starts_at.getD [], b.ends_at.getD []⟩ ∧
    (mkMerged a b s).all_m3u8_urls =
      ([a.m3u8_url.getD [], b.m3u8_url.getD []]).filter (fun u => !u.isEmpty) ∧
    (mkMerged a b s).all_iframes =
      ([a.iframe_url.getD [], b.iframe_url.getD []]).filter (fun u => !u.isEmpty) ∧
    (∀ u, u ≠ [] → a.m3u8_url = some u → b.m3u8_url = some u →
      (mkMerged a b s).all_m3u8_urls = [u, u]) ∧
    (∀ u, u ≠ [] → a.iframe_url = some u → b.iframe_url = some u →
      (mkMerged a b s).all_iframes = [u, u]) := by
  refine ⟨rfl, rfl, rfl, rfl, rfl, rfl, rfl, keepTruthy_pair _ _, keepTruthy_pair _ _, ?_, ?_⟩
  · intro u hu ha hb
    show keepTruthy [a.m3u8_url, b.m3u8_url] = [u, u]
    rw [ha, hb]
    simp [keepTruthy, hu]
  · intro u hu ha hb
    show keepTruthy [a.iframe_url, b.iframe_url] = [u, u]
    rw [ha, hb]
    simp [keepTruthy, hu]

/-- C7 witness: a concrete matched pair in which both sides supply the
same stream URL; it appears twice in the aggregate, and every field is
mapped as specified. -/
theorem mkMerged_fields_witness :
    (mkMerged ⟨"t".toList, some "s".toList, none, some "u".toList, none, none⟩
        ⟨"t2".toList, some "c".toList, none, none, some "u".toList, some "i".toList, none, none⟩
        (13/20)).title = "t".toList ∧
    (mkMerged ⟨"t".toList, some "s".toList, none, some "u".toList, none, none⟩
        ⟨"t2".toList, some "c".toList, none, none, some "u".toList, some "i".toList, none, none⟩
        (13/20)).alternative_title = "t2".toList ∧
    (mkMerged ⟨"t".toList, some "s".toList, none, some "u".toList, none, none⟩
        ⟨"t2".toList, some "c".toList, none, none, some "u".toList, some "i".toList, none, none⟩
        (13/20)).match_confidence = pyRound2 (13/20) ∧
    (mkMerged ⟨"t".toList, some "s".toList, none, some "u".toList, none, none⟩
        ⟨"t2".toList, some "c".toList, none, none, some "u".toList, some "i".toList, none, none⟩
        (13/20)).all_m3u8_urls = ["u".toList, "u".toList] := by
  have h := mkMerged_fields
    ⟨"t".toList, some "s".toList, none, some "u".toList, none, none⟩
    ⟨"t2".toList, some "c".toList, none, none, some "u".toList, some "i".toList, none, none⟩
    (13/20)
  exact ⟨h.1, h.2.1, h.2.2.1, h.2.2.2.2.2.2.2.2.2.1 ("u".toList) (by decide) rfl rfl⟩

/-!
## Helper lemmas for normalization idempotence (C5)
-/

/-- A successful `lookup` comes from a table entry. -/
theorem lookup_mem_table : ∀ (l : List (Char × Char)) (a b : Char),
    l.lookup a = some b → (a, b) ∈ l := by
  intro l
  induction l with
  | nil => intro a b h; cases h
  | cons p rest ih =>
    intro a b h
    rw [List.lookup_cons] at h
    by_cases ha : (a == p.1) = true
    · simp only [ha] at h
      cases h
      have hap : a = p.1 := beq_iff_eq.mp ha
      rw [hap]
      exact List.mem_cons_self _ _
    · simp only [Bool.eq_false_iff.mpr ha] at h
      exact List.mem_cons_of_mem _ (ih a b h)

/-- Every right-hand side of the lowercase table is fixed by `pyCharLower`. -/
theorem lowerTable_rhs_fixed : ∀ p ∈ lowerTable, pyCharLower p.2 = [p.2] := by decide

/-- Every character produced by `pyCharLower` is itself fixed by it. -/
theorem pyCharLower_out_fixed : ∀ c d : Char, d ∈ pyCharLower c → pyCharLower d = [d] := by
  intro c d hd
  rw [pyCharLower] at hd
  by_cases hc : c = 'İ'
  · rw [if_pos hc] at hd
    simp only [List.mem_cons, List.mem_singleton, List.not_mem_nil, or_false] at hd
    rcases hd with h | h
    · rw [h]; decide
    · rw [h]; decide
  · rw [if_neg hc] at hd
    cases hl : lowerTable.lookup c with
    | some e =>
      rw [hl] at hd
      rw [List.mem_singleton] at hd
      rw [hd]
      exact lowerTable_rhs_fixed (c, e) (lookup_mem_table lowerTable c e hl)
    | none =>
      rw [hl] at hd
      rw [List.mem_singleton] at hd
      subst hd
      rw [pyCharLower, if_neg hc, hl]

/-- Strings all of whose characters are fixed by `pyCharLower` are fixed
by `pyLower`. -/
theorem pyLower_of_fixed : ∀ s : Str, (∀ c ∈ s, pyCharLower c = [c]) → pyLower s = s := by
  intro s h
  induction s with
  | nil => rfl
  | cons c cs ih =>
    show pyCharLower c ++ pyLower cs = c :: cs
    rw [h c (List.mem_cons_self c cs), ih (fun d hd => h d (List.mem_cons_of_mem c hd))]
    rfl

/-- Every character of a lowercased string is fixed by `pyCharLower`. -/
theorem mem_pyLower_fixed : ∀ (s : Str) (d : Char), d ∈ pyLower s → pyCharLower d = [d] := by
  intro s
  induction s with
  | nil => intro d hd; cases hd
  | cons c cs ih =>
    intro d hd
    rcases List.mem_append.mp hd with h | h
    · exact pyCharLower_out_fixed c d h
    · exact ih d h

/-- Characters of `replaceGo`'s output come from the input or from the
replacement string. -/
theorem mem_replaceGo (old new : Str) :
    ∀ (f : ℕ) (s : Str) (c : Char), c ∈ replaceGo old new f s → c ∈ s ∨ c ∈ new := by
  intro f
  induction f with
  | zero =>
    intro s c h
    cases s with
    | nil => cases h
    | cons d ds => exact Or.inl h
  | succ g ih =>
    intro s c h
    cases s with
    | nil => cases h
    | cons d ds =>
      rw [replaceGo] at h
      by_cases hm : (startsWith old (d :: ds) = true ∧ old ≠ [])
      · rw [if_pos hm] at h
        rcases List.mem_append.mp h with h1 | h1
        · exact Or.inr h1
        · rcases ih _ c h1 with h2 | h2
          · exact Or.inl (List.mem_cons_of_mem d (List.mem_of_mem_drop h2))
          · exact Or.inr h2
      · rw [if_neg hm] at h
        rcases List.mem_cons.mp h with h1 | h1
        · exact Or.inl (h1 ▸ List.mem_cons_self _ _)
        · rcases ih _ c h1 with h2 | h2
          · exact Or.inl (List.mem_cons_of_mem d h2)
          · exact Or.inr h2

/-- Characters of the replacement pass come from the input or from
"turkey" (the only replacement values are the empty string and "turkey"). -/
theorem mem_applyReplacements (s : Str) (c : Char) :
    c ∈ applyReplacements s → c ∈ s ∨ c ∈ "turkey".toList := by
  intro h
  rw [applyReplacements] at h
  simp only [replacements, List.foldl_cons, List.foldl_nil] at h
  rcases mem_replaceGo _ _ _ _ _ h with h | h
  · rcases mem_replaceGo _ _ _ _ _ h with h | h
    · rcases mem_replaceGo _ _ _ _ _ h with h | h
      · rcases mem_replaceGo _ _ _ _ _ h with h | h
        · exact Or.inl h
        · cases h
      · cases h
    · exact Or.inr h
  · exact Or.inr h

/-- Characters of the words of a string come from the string or the
accumulator. -/
theorem mem_pyWordsAux : ∀ (s acc w : Str), w ∈ pyWordsAux s acc →
    ∀ c ∈ w, c ∈ s ∨ c ∈ acc := by
  intro s
  induction s with
  | nil =>
    intro acc w hw c hc
    rw [pyWordsAux] at hw
    by_cases ha : acc = []
    · rw [if_pos ha] at hw
      cases hw
    · rw [if_neg ha] at hw
      rw [List.mem_singleton] at hw
      subst hw
      exact Or.inr (List.mem_reverse.mp hc)
  | cons d ds ih =>
    intro acc w hw c hc
    rw [pyWordsAux] at hw
    by_cases hd : isPySpace d = true
    · rw [if_pos hd] at hw
      by_cases ha : acc = []
      · rw [if_pos ha] at hw
        rcases ih [] w hw c hc with h | h
        · exact Or.inl (List.mem_cons_of_mem d h)
        · cases h
      · rw [if_neg ha] at hw
        rcases List.mem_cons.mp hw with h1 | h1
        · subst h1
          exact Or.inr (List.mem_reverse.mp hc)
        · rcases ih [] w h1 c hc with h | h
          · exact Or.inl (List.mem_cons_of_mem d h)
          · cases h
    · rw [if_neg hd] at hw
      rcases ih (d :: acc) w hw c hc with h | h
      · exact Or.inl (List.mem_cons_of_mem d h)
      · rcases List.mem_cons.mp h with h1 | h1
        · exact Or.inl (h1 ▸ List.mem_cons_self _ _)
        · exact Or.inr h1

/-- Characters of a space-join come from the words or are the space. -/
theorem mem_joinSpaces : ∀ (ws : List Str) (c : Char), c ∈ joinSpaces ws →
    (∃ w ∈ ws, c ∈ w) ∨ c = ' ' := by
  intro ws
  induction ws with
  | nil => intro c hc; cases hc
  | cons w rest ih =>
    intro c hc
    cases rest with
    | nil =>
      exact Or.inl ⟨w, List.mem_cons_self _ _, hc⟩
    | cons w2 rest2 =>
      have hj : joinSpaces (w :: w2 :: rest2) = w ++ ' ' :: joinSpaces (w2 :: rest2) := rfl
      rw [hj] at hc
      rcases List.mem_append.mp hc with h | h
      · exact Or.inl ⟨w, List.mem_cons_self _ _, h⟩
      · rcases List.mem_cons.mp h with h1 | h1
        · exact Or.inr h1
        · rcases ih c h1 with ⟨w3, hw3, hcw3⟩ | h2
          · exact Or.inl ⟨w3, List.mem_cons_of_mem _ hw3, hcw3⟩
          · exact Or.inr h2

/-- `pyStrip` only removes characters. -/
theorem mem_pyStrip (s : Str) (c : Char) : c ∈ pyStrip s → c ∈ s := by
  intro h
  rw [pyStrip] at h
  rw [List.mem_reverse] at h
  have h1 := (List.dropWhile_sublist (l := (s.dropWhile isPySpace).reverse) isPySpace).mem h
  rw [List.mem_reverse] at h1
  exact (List.dropWhile_sublist isPySpace).mem h1

/-- The words of a string are nonempty and whitespace-free. -/
theorem pyWordsAux_chunks : ∀ (s acc : Str), (∀ c ∈ acc, isPySpace c = false) →
    ∀ w ∈ pyWordsAux s acc, w ≠ [] ∧ ∀ c ∈ w, isPySpace c = false := by
  intro s
  induction s with
  | nil =>
    intro acc hacc w hw
    rw [pyWordsAux] at hw
    by_cases ha : acc = []
    · rw [if_pos ha] at hw
      cases hw
    · rw [if_neg ha] at hw
      rw [List.mem_singleton] at hw
      subst hw
      refine ⟨fun hre => ha (by simpa using congrArg List.reverse hre), ?_⟩
      intro c hc
      exact hacc c (List.mem_reverse.mp hc)
  | cons d ds ih =>
    intro acc hacc w hw
    rw [pyWordsAux] at hw
    by_cases hd : isPySpace d = true
    · rw [if_pos hd] at hw
      by_cases ha : acc = []
      · rw [if_pos ha] at hw
        exact ih [] (by intro c hc; cases hc) w hw
      · rw [if_neg ha] at hw
        rcases List.mem_cons.mp hw with h1 | h1
        · subst h1
          refine ⟨fun hre => ha (by simpa using congrArg List.reverse hre), ?_⟩
          intro c hc
          exact hacc c (List.mem_reverse.mp hc)
        · exact ih [] (by intro c hc; cases hc) w h1
    · rw [if_neg hd] at hw
      refine ih (d :: acc) ?_ w hw
      intro c hc
      rcases List.mem_cons.mp hc with h1 | h1
      · rw [h1]
        exact Bool.eq_false_iff.mpr hd
      · exact hacc c h1

/-- Consuming a whitespace-free block extends the accumulator. -/
theorem pyWordsAux_append_nospace : ∀ (w s acc : Str),
    (∀ c ∈ w, isPySpace c = false) →
    pyWordsAux (w ++ s) acc = pyWordsAux s (w.reverse ++ acc) := by
  intro w
  induction w with
  | nil => intro s acc _; rfl
  | cons c w' ih =>
    intro s acc hw
    show pyWordsAux (c :: (w' ++ s)) acc = _
    rw [pyWordsAux]
    rw [if_neg (by rw [hw c (List.mem_cons_self _ _)]; exact Bool.false_ne_true)]
    rw [ih s (c :: acc) (fun d hd => hw d (List.mem_cons_of_mem c hd))]
    congr 1
    simp

/-- Splitting a space-join of nonempty whitespace-free words recovers the
words. -/
theorem pyWords_joinSpaces : ∀ ws : List Str,
    (∀ w ∈ ws, w ≠ [] ∧ ∀ c ∈ w, isPySpace c = false) →
    pyWords (joinSpaces ws) = ws := by
  intro ws
  induction ws with
  | nil => intro _; rfl
  | cons w rest ih =>
    intro h
    obtain ⟨hw_ne, hw_ns⟩ := h w (List.mem_cons_self _ _)
    cases rest with
    | nil =>
      show pyWordsAux (joinSpaces [w]) [] = [w]
      have hjw : joinSpaces [w] = w := rfl
      rw [hjw, ← List.append_nil w, pyWordsAux_append_nospace w [] [] hw_ns]
      rw [pyWordsAux]
      rw [if_neg (by simpa using fun hre => hw_ne (by simpa using congrArg List.reverse hre))]
      simp
    | cons w2 rest2 =>
      have hj : joinSpaces (w :: w2 :: rest2) = w ++ ' ' :: joinSpaces (w2 :: rest2) := rfl
      show pyWordsAux (joinSpaces (w :: w2 :: rest2)) [] = _
      rw [hj, pyWordsAux_append_nospace w (' ' :: joinSpaces (w2 :: rest2)) [] hw_ns]
      rw [pyWordsAux]
      rw [if_pos (by decide)]
      rw [if_neg (by simpa using fun hre => hw_ne (by simpa using congrArg List.reverse hre))]
      rw [List.append_nil, List.reverse_reverse]
      exact congrArg (w :: ·) (ih (fun v hv => h v (List.mem_cons_of_mem w hv)))

/-- A space-join of a list headed by a nonempty word is nonempty. -/
theorem joinSpaces_ne_nil : ∀ (w : Str) (ws : List Str), w ≠ [] →
    joinSpaces (w :: ws) ≠ [] := by
  intro w ws hw
  cases ws with
  | nil => exact hw
  | cons w2 rest =>
    have hj : joinSpaces (w :: w2 :: rest) = w ++ ' ' :: joinSpaces (w2 :: rest) := rfl
    rw [hj]
    simp

/-- The last character of a nonempty space-join of nonempty
whitespace-free words is not whitespace. -/
theorem getLast?_joinSpaces : ∀ ws : List Str,
    (∀ w ∈ ws, w ≠ [] ∧ ∀ c ∈ w, isPySpace c = false) → ws ≠ [] →
    ∃ c, (joinSpaces ws).getLast? = some c ∧ isPySpace c = false := by
  intro ws
  induction ws with
  | nil => intro _ h; exact absurd rfl h
  | cons w rest ih =>
    intro h _
    obtain ⟨hw_ne, hw_ns⟩ := h w (List.mem_cons_self _ _)
    cases rest with
    | nil =>
      refine ⟨(joinSpaces [w]).getLast hw_ne, List.getLast?_eq_getLast _ _, ?_⟩
      exact hw_ns _ (List.getLast_mem hw_ne)
    | cons w2 rest2 =>
      obtain ⟨c, hc, hcns⟩ := ih (fun v hv => h v (List.mem_cons_of_mem w hv)) (by simp)
      refine ⟨c, ?_, hcns⟩
      have hj : joinSpaces (w :: w2 :: rest2) = w ++ ' ' :: joinSpaces (w2 :: rest2) := rfl
      rw [hj, List.getLast?_append]
      have hJ : joinSpaces (w2 :: rest2) ≠ [] :=
        joinSpaces_ne_nil w2 rest2 (h w2 (by simp)).1
      cases hJc : joinSpaces (w2 :: rest2) with
      | nil => exact absurd hJc hJ
      | cons d ds =>
        rw [hJc] at hc
        simp only [List.getLast?_cons_cons, hc, Option.or_some]

/-- The first character of a space-join of nonempty whitespace-free words
is not whitespace. -/
theorem head_joinSpaces : ∀ ws : List Str,
    (∀ w ∈ ws, w ≠ [] ∧ ∀ c ∈ w, isPySpace c = false) →
    ∀ c cs, joinSpaces ws = c :: cs → isPySpace c = false := by
  intro ws h c cs hj
  cases ws with
  | nil => cases hj
  | cons w rest =>
    obtain ⟨hw_ne, hw_ns⟩ := h w (List.mem_cons_self _ _)
    cases hw2 : w with
    | nil => exact absurd hw2 hw_ne
    | cons d ds =>
      have : c = d := by
        cases rest with
        | nil =>
          have : joinSpaces [w] = w := rfl
          rw [this, hw2] at hj
          cases hj
          rfl
        | cons w2 rest2 =>
          have hje : joinSpaces (w :: w2 :: rest2) = w ++ ' ' :: joinSpaces (w2 :: rest2) := rfl
          rw [hje, hw2] at hj
          cases hj
          rfl
      rw [this]
      exact hw_ns d (hw2 ▸ List.mem_cons_self _ _)

/-- Stripping a space-join of nonempty whitespace-free words is a no-op. -/
theorem pyStrip_joinSpaces (ws : List Str)
    (h : ∀ w ∈ ws, w ≠ [] ∧ ∀ c ∈ w, isPySpace c = false) :
    pyStrip (joinSpaces ws) = joinSpaces ws := by
  cases hws : ws with
  | nil => rfl
  | cons w rest =>
    rw [← hws]
    have h1 : (joinSpaces ws).dropWhile isPySpace = joinSpaces ws :=
      dropWhile_of_head_false _ _ (head_joinSpaces ws h)
    have h2 : (joinSpaces ws).reverse.dropWhile isPySpace = (joinSpaces ws).reverse := by
      apply dropWhile_of_head_false
      intro c cs hc
      obtain ⟨d, hd, hdns⟩ := getLast?_joinSpaces ws h (by rw [hws]; simp)
      have : some c = some d := by
        rw [← List.head?_reverse] at hd
        rw [hc] at hd
        exact hd.symm ▸ rfl
      cases this
      exact hdns
    rw [pyStrip, h1, h2, List.reverse_reverse]

/-- The trailing strip of the normalizer is a no-op, so the normalizer is
the collapse of the replaced, lowercased input. -/
theorem normalize_eq_join (x : Str) :
    normalize_team_name x = joinSpaces (pyWords (applyReplacements (pyLower x))) := by
  rw [normalize_team_name]
  exact pyStrip_joinSpaces _ (pyWordsAux_chunks _ [] (by intro c hc; cases hc))

/-- The words of a string are nonempty and whitespace-free. -/
theorem pyWords_chunks (s : Str) :
    ∀ w ∈ pyWords s, w ≠ [] ∧ ∀ c ∈ w, isPySpace c = false :=
  pyWordsAux_chunks s [] (by intro c hc; cases hc)

/-- Every character of "turkey" is fixed by `pyCharLower`. -/
theorem turkey_fixed : ∀ c ∈ "turkey".toList, pyCharLower c = [c] := by decide

/-- Every character of a normalized name is fixed by `pyCharLower`. -/
theorem normalize_chars_fixed (x : Str) :
    ∀ c ∈ normalize_team_name x, pyCharLower c = [c] := by
  intro c hc
  rw [normalize_eq_join] at hc
  rcases mem_joinSpaces _ c hc with ⟨w, hw, hcw⟩ | hsp
  · rcases mem_pyWordsAux _ [] w hw c hcw with h | h
    · rcases mem_applyReplacements _ c h with h2 | h2
      · exact mem_pyLower_fixed x c h2
      · exact turkey_fixed c h2
    · cases h
  · rw [hsp]; decide

/-- C5 (amended): the normalizer is idempotent on exactly those inputs
whose normalized form the replacement table leaves unchanged.  (Full
idempotence fails: removing a replacement key can splice a new occurrence
of a key together, as in the counterexample.) -/
theorem normalize_team_name_conditionally_idempotent (x : Str)
    (h : applyReplacements (normalize_team_name x) = normalize_team_name x) :
    normalize_team_name (normalize_team_name x) = normalize_team_name x := by
  rw [normalize_team_name, pyLower_of_fixed _ (normalize_chars_fixed x), h,
    normalize_eq_join x, pyWords_joinSpaces _ (pyWords_chunks _)]
  exact pyStrip_joinSpaces _ (pyWords_chunks _)

/-- C5 counterexample: `normalize("reprep..") = "rep."` (removing the
inner `"rep."` splices a new `"rep."` together), and normalizing again
gives `""`, so `normalize` is not idempotent. -/
theorem normalize_team_name_not_idempotent :
    normalize_team_name (normalize_team_name ("reprep..".toList)) ≠
      normalize_team_name ("reprep..".toList) := by decide

/-- C5 witness: on an input whose normalized form has no replacement-table
occurrence, normalization is idempotent. -/
theorem normalize_team_name_conditionally_idempotent_witness :
    normalize_team_name (normalize_team_name ("  Foo   Bar ".toList)) =
      normalize_team_name ("  Foo   Bar ".toList) :=
  normalize_team_name_conditionally_idempotent ("  Foo   Bar ".toList) (by decide)

/-!
## The spec-side description of the assignment engine (C2)

`specBest`/`specMerge` below follow the spec's words for §4.4: list the
matching candidates of the current pool with their scores and positions,
retain the first candidate whose score is greatest (first-scanned wins
ties), remove it from the pool, and turn the final pool into `unmatchedB`.
They are compared with the source translation `findBest`/`merge_events`.
-/

/-- A candidate: a pool record with its score and pool position. -/
abbrev Cand := PtvEvent × ℚ × ℕ

/-- The matching candidates of the pool (positions counted from `i`),
in pool order, each with its `teams_match` score. -/
def candsFrom (t : Str) (i : ℕ) (pool : List PtvEvent) : List Cand :=
  (pool.enumFrom i).filterMap (fun p =>
    let r := teams_match t p.2.title
    if r.1 = true then some (p.2, r.2, p.1) else none)

/-- Spec §4.4 selection: the first candidate whose score is at least every
candidate's score — "the strictly greatest score, first-scanned wins ties". -/
def specBest (t : Str) (pool : List PtvEvent) : Option Cand :=
  let cands := candsFrom t 0 pool
  cands.find? (fun c => cands.all (fun d => d.2.1 ≤ c.2.1))

/-- Spec §4.4 engine: process `listA` in order; on a successful selection
emit the merged pair and remove the winner from the pool, otherwise append
the record to `unmatchedA`; the final pool is `unmatchedB`. -/
def specMerge : List SbEvent → List PtvEvent →
    List MergedEvent × List SbEvent × List PtvEvent
  | [], pool => ([], [], pool)
  | sb :: rest, pool =>
    match specBest sb.title pool with
    | some c =>
      let r := specMerge rest (pool.eraseIdx c.2.2)
      (mkMerged sb c.1 c.2.1 :: r.1, r.2.1, r.2.2)
    | none =>
      let r := specMerge rest pool
      (r.1, sb :: r.2.1, r.2.2)

/-- The score of a running-best state (`None` scores 0, the loop's
initial `best_score`). -/
def stScore : Option Cand → ℚ
  | none => 0
  | some c => c.2.1

/-- The running-best recurrence over an explicit candidate list. -/
def runBest : Option Cand → List Cand → Option Cand
  | st, [] => st
  | st, c :: rest => runBest (if stScore st < c.2.1 then some c else st) rest

/-- Decoding a running-best state into the loop's
`(best_match, best_score, best_index)` triple. -/
def encodeSt : Option Cand → Option PtvEvent × ℚ × ℤ
  | none => (none, 0, -1)
  | some c => (some c.1, c.2.1, (c.2.2 : ℤ))

/-- The candidate loop of `merge_events` is the running-best recurrence
over the matching candidates of the pool. -/
theorem findBest_eq_runBest (t : Str) :
    ∀ (pool : List PtvEvent) (i : ℕ) (st : Option Cand),
      findBest t i (encodeSt st) pool = encodeSt (runBest st (candsFrom t i pool)) := by
  intro pool
  induction pool with
  | nil => intro i st; rfl
  | cons e rest ih =>
    intro i st
    rw [findBest]
    have hcands : candsFrom t i (e :: rest) =
        (if (teams_match t e.title).1 = true
          then [(e, (teams_match t e.title).2, i)] else []) ++ candsFrom t (i + 1) rest := by
      rw [candsFrom, List.enumFrom]
      rw [List.filterMap_cons]
      by_cases hm : (teams_match t e.title).1 = true
      · simp only [hm, if_true]
        rfl
      · simp only [hm, if_false]
        rfl
    by_cases hm : (teams_match t e.title).1 = true
    · rw [hcands, if_pos hm, List.singleton_append]
      have hst : (encodeSt st).2.1 = stScore st := by cases st <;> rfl
      by_cases hlt : stScore st < (teams_match t e.title).2
      · rw [if_pos (by rw [hst]; exact ⟨hm, hlt⟩)]
        have : (some e, (teams_match t e.title).2, (i : ℤ)) =
            encodeSt (some (e, (teams_match t e.title).2, i)) := rfl
        rw [this, ih (i + 1) (some (e, (teams_match t e.title).2, i))]
        rw [runBest, if_pos hlt]
      · rw [if_neg (by rw [hst]; exact fun hh => hlt hh.2)]
        rw [ih (i + 1) st, runBest, if_neg hlt]
    · rw [hcands, if_neg hm, List.nil_append]
      rw [if_neg (fun hh => hm hh.1)]
      exact ih (i + 1) st

/-- The similarity ratio is nonnegative. -/
theorem ratioQ_nonneg (a b : Str) : 0 ≤ ratioQ a b := by
  rw [ratioQ]
  by_cases h : a.length + b.length = 0
  · rw [if_pos h]
    norm_num
  · rw [if_neg h]
    positivity

/-- A successful match always carries a strictly positive score (so the
loop's `score > best_score` guard with initial `best_score = 0` never
discards a matching candidate). -/
theorem teams_match_pos (t1 t2 : Str) :
    (teams_match t1 t2).1 = true → 0 < (teams_match t1 t2).2 := by
  rw [teams_match]
  have n1 := ratioQ_nonneg ((extract_teams t1).1.getD []) ((extract_teams t2).1.getD [])
  have n2 := ratioQ_nonneg ((extract_teams t1).2.getD []) ((extract_teams t2).2.getD [])
  have n3 := ratioQ_nonneg ((extract_teams t1).1.getD []) ((extract_teams t2).2.getD [])
  have n4 := ratioQ_nonneg ((extract_teams t1).2.getD []) ((extract_teams t2).1.getD [])
  have hml := le_max_left
    ((ratioQ ((extract_teams t1).1.getD []) ((extract_teams t2).1.getD []) +
      ratioQ ((extract_teams t1).2.getD []) ((extract_teams t2).2.getD [])) / 2)
    ((ratioQ ((extract_teams t1).1.getD []) ((extract_teams t2).2.getD []) +
      ratioQ ((extract_teams t1).2.getD []) ((extract_teams t2).1.getD [])) / 2)
  have hmr := le_max_right
    ((ratioQ ((extract_teams t1).1.getD []) ((extract_teams t2).1.getD []) +
      ratioQ ((extract_teams t1).2.getD []) ((extract_teams t2).2.getD [])) / 2)
    ((ratioQ ((extract_teams t1).1.getD []) ((extract_teams t2).2.getD []) +
      ratioQ ((extract_teams t1).2.getD []) ((extract_teams t2).1.getD [])) / 2)
  dsimp only
  split_ifs with h1 h2 h3 h4 h5 <;> intro h
  · cases h
  · norm_num
  · norm_num
  · linarith
  · rcases h5 with h5 | h5 | h5 | h5
    · linarith
    · linarith
    · linarith
    · linarith
  · cases h

/-- Every listed candidate has a strictly positive score. -/
theorem candsFrom_pos (t : Str) (i : ℕ) (pool : List PtvEvent) :
    ∀ c ∈ candsFrom t i pool, 0 < c.2.1 := by
  intro c hc
  rw [candsFrom, List.mem_filterMap] at hc
  obtain ⟨p, _, hfc⟩ := hc
  by_cases hm : (teams_match t p.2.title).1 = true
  · simp only [hm, if_true] at hfc
    cases hfc
    exact teams_match_pos t p.2.title hm
  · simp only [hm, if_false] at hfc
    cases hfc

/-- `find?` only depends on the predicate's values on the list. -/
theorem find?_congr {α : Type} (L : List α) (p q : α → Bool)
    (h : ∀ x ∈ L, p x = q x) : L.find? p = L.find? q := by
  induction L with
  | nil => rfl
  | cons a l ih =>
    rw [List.find?_cons, List.find?_cons, h a (List.mem_cons_self _ _)]
    cases hq : q a
    · exact ih (fun x hx => h x (List.mem_cons_of_mem a hx))
    · rfl

/-- The running best over a candidate list with a seeded accumulator is
the first weakly-dominating element of accumulator-then-list. -/
theorem runBest_acc (L : List Cand) :
    ∀ acc : Cand,
      runBest (some acc) L =
        (acc :: L).find? (fun c => (acc :: L).all (fun d => d.2.1 ≤ c.2.1)) := by
  induction L with
  | nil =>
    intro acc
    rw [runBest, List.find?_cons]
    have : ((acc :: []).all (fun d => d.2.1 ≤ acc.2.1)) = true := by simp
    rw [this]
  | cons c L' ih =>
    intro acc
    rw [runBest]
    show runBest (if acc.2.1 < c.2.1 then some c else some acc) L' = _
    by_cases hlt : acc.2.1 < c.2.1
    · rw [if_pos hlt, ih c]
      have hpa : ((acc :: c :: L').all (fun d => d.2.1 ≤ acc.2.1)) = false := by
        simp only [List.all_cons, Bool.and_eq_false_iff]
        right
        left
        simpa using not_le_of_lt hlt
      conv_rhs => rw [List.find?_cons]
      rw [hpa]
      apply find?_congr
      intro x hx
      simp only [List.all_cons]
      by_cases h1 : c.2.1 ≤ x.2.1
      · have h0 : acc.2.1 ≤ x.2.1 := le_of_lt (lt_of_lt_of_le hlt h1)
        simp [h0]
      · simp [h1]
    · rw [if_neg hlt, ih acc]
      have hc_le : c.2.1 ≤ acc.2.1 := le_of_not_lt hlt
      rw [List.find?_cons, List.find?_cons]
      have hacc_eq : ((acc :: c :: L').all (fun d => d.2.1 ≤ acc.2.1)) =
          ((acc :: L').all (fun d => d.2.1 ≤ acc.2.1)) := by
        simp only [List.all_cons]
        simp [hc_le]
      rw [hacc_eq]
      cases hpa : ((acc :: L').all (fun d => d.2.1 ≤ acc.2.1)) with
      | true => rfl
      | false =>
        have hpc : ((acc :: c :: L').all (fun d => d.2.1 ≤ c.2.1)) = false := by
          cases hpc : ((acc :: c :: L').all (fun d => d.2.1 ≤ c.2.1)) with
          | false => rfl
          | true =>
            exfalso
            have hall := List.all_eq_true.mp hpc
            have h1 : acc.2.1 ≤ c.2.1 := by simpa using hall acc (List.mem_cons_self _ _)
            have heq : acc.2.1 = c.2.1 := le_antisymm h1 hc_le
            have : ((acc :: L').all (fun d => d.2.1 ≤ acc.2.1)) = true := by
              rw [List.all_eq_true]
              intro d hd
              rcases List.mem_cons.mp hd with h2 | h2
              · simp [h2]
              · have := hall d (List.mem_cons_of_mem _ (List.mem_cons_of_mem _ h2))
                simp only [decide_eq_true_eq] at this
                simpa using le_trans this hc_le
            rw [this] at hpa
            cases hpa
        conv_rhs => rw [List.find?_cons]
        rw [hpc]
        apply find?_congr
        intro x hx
        simp only [List.all_cons]
        by_cases h1 : acc.2.1 ≤ x.2.1
        · have h2 : c.2.1 ≤ x.2.1 := le_trans hc_le h1
          simp [h1, h2]
        · simp [h1]

/-- The running best from the empty state is the first weakly-dominating
candidate, provided all scores are positive. -/
theorem runBest_none (L : List Cand) (hpos : ∀ c ∈ L, 0 < c.2.1) :
    runBest none L = L.find? (fun c => L.all (fun d => d.2.1 ≤ c.2.1)) := by
  cases L with
  | nil => rfl
  | cons c L' =>
    rw [runBest]
    show runBest (if stScore none < c.2.1 then some c else none) L' = _
    rw [show stScore none = (0:ℚ) from rfl, if_pos (hpos c (List.mem_cons_self _ _))]
    exact runBest_acc L' c

/-- The source's candidate loop computes exactly the spec's selection. -/
theorem findBest_eq_specBest (t : Str) (pool : List PtvEvent) :
    findBest t 0 (none, 0, -1) pool = encodeSt (specBest t pool) := by
  have h := findBest_eq_runBest t pool 0 none
  rw [show ((none, 0, -1) : Option PtvEvent × ℚ × ℤ) = encodeSt none from rfl, h,
    runBest_none _ (candsFrom_pos t 0 pool)]
  rfl

/-- C2: the greedy engine equals its specification: records of `listA`
are processed in original order; for each, the pool is scanned in its
current order and the first candidate with the strictly greatest
`teams_match` score among matching candidates is selected (ties go to the
first scanned, since the running best is replaced only on strict
improvement); the winner is removed from the pool before the next record;
a record with no matching candidate goes to `unmatchedA`; the final pool
is `unmatchedB`. -/
theorem merge_events_eq_specMerge : ∀ (A : List SbEvent) (B : List PtvEvent),
    merge_events A B = specMerge A B := by
  intro A
  induction A with
  | nil => intro B; rfl
  | cons sb rest ih =>
    intro B
    rw [merge_events, specMerge, findBest_eq_specBest]
    cases h : specBest sb.title B with
    | none =>
      rw [encodeSt]
      exact congrArg (fun r : List MergedEvent × List SbEvent × List PtvEvent =>
        (r.1, sb :: r.2.1, r.2.2)) (ih B)
    | some c =>
      rw [encodeSt]
      show (mkMerged sb c.1 c.2.1 :: (merge_events rest (B.eraseIdx ((c.2.2 : ℤ)).toNat)).1, _, _) = _
      rw [Int.toNat_natCast, ih (B.eraseIdx c.2.2)]

/-- C2 witness: a concrete run with a contested pool record. -/
theorem merge_events_eq_specMerge_witness :
    merge_events [⟨"Lakers vs Celtics".toList, none, none, none, none, none⟩]
        [⟨"Celtics vs Lakers".toList, none, none, none, none, none, none, none⟩,
         ⟨"Lakers vs Celtics".toList, none, none, none, none, none, none, none⟩] =
      specMerge [⟨"Lakers vs Celtics".toList, none, none, none, none, none⟩]
        [⟨"Celtics vs Lakers".toList, none, none, none, none, none, none, none⟩,
         ⟨"Lakers vs Celtics".toList, none, none, none, none, none, none, none⟩] :=
  merge_events_eq_specMerge _ _

/-!
## Partition invariants of the engine (C1)
-/

/-- The assignment loop instrumented to return the matched pairs
themselves (its projection through `mkMerged` is `merge_events`). -/
def mergePairs : List SbEvent → List PtvEvent →
    List (SbEvent × PtvEvent × ℚ) × List SbEvent × List PtvEvent
  | [], pool => ([], [], pool)
  | sb :: rest, pool =>
    match findBest sb.title 0 (none, 0, -1) pool with
    | (some bm, best_score, best_index) =>
      let r := mergePairs rest (pool.eraseIdx best_index.toNat)
      ((sb, bm, best_score) :: r.1, r.2.1, r.2.2)
    | (none, _, _) =>
      let r := mergePairs rest pool
      (r.1, sb :: r.2.1, r.2.2)

/-- `merge_events` is the `mkMerged` image of the instrumented loop. -/
theorem merge_events_eq_mergePairs : ∀ (A : List SbEvent) (B : List PtvEvent),
    merge_events A B =
      ((mergePairs A B).1.map (fun p => mkMerged p.1 p.2.1 p.2.2),
       (mergePairs A B).2.1, (mergePairs A B).2.2) := by
  intro A
  induction A with
  | nil => intro B; rfl
  | cons sb rest ih =>
    intro B
    rw [merge_events, mergePairs]
    rcases h : findBest sb.title 0 (none, 0, -1) B with ⟨bm, s, i⟩
    cases bm with
    | none => simp only [ih B]
    | some e => simp only [ih (B.eraseIdx i.toNat), List.map_cons]

/-- Membership in `enumFrom` locates the element. -/
theorem mem_enumFrom_get? {α : Type} : ∀ (l : List α) (n i : ℕ) (x : α),
    (i, x) ∈ l.enumFrom n → n ≤ i ∧ l.get? (i - n) = some x := by
  intro l
  induction l with
  | nil => intro n i x h; cases h
  | cons d ds ih =>
    intro n i x h
    rw [List.enumFrom] at h
    rcases List.mem_cons.mp h with h1 | h1
    · rw [Prod.mk.injEq] at h1
      obtain ⟨hi, hx⟩ := h1
      subst hi
      subst hx
      exact ⟨le_refl _, by simp⟩
    · obtain ⟨hn, hg⟩ := ih (n + 1) i x h1
      refine ⟨le_trans (Nat.le_succ n) hn, ?_⟩
      have hd : i - n = (i - (n + 1)) + 1 := by omega
      rw [hd]
      simpa using hg

/-- An element located at an index is permutation-recoverable:
the list is a permutation of that element consed on the list with the
index removed. -/
theorem perm_get?_eraseIdx {α : Type} : ∀ (l : List α) (i : ℕ) (x : α),
    l.get? i = some x → List.Perm l (x :: l.eraseIdx i) := by
  intro l
  induction l with
  | nil => intro i x h; cases h
  | cons d ds ih =>
    intro i x h
    cases i with
    | zero =>
      rw [List.get?_cons_zero] at h
      cases h
      exact List.Perm.refl _
    | succ j =>
      rw [List.get?_cons_succ] at h
      have hperm := ih j x h
      exact List.Perm.trans (hperm.cons d) (List.Perm.swap x d (ds.eraseIdx j))

/-- A selected candidate really sits at its reported pool index. -/
theorem specBest_get? (t : Str) (pool : List PtvEvent) (c : Cand)
    (h : specBest t pool = some c) : pool.get? c.2.2 = some c.1 := by
  rw [specBest] at h
  have hc := List.mem_of_find?_eq_some h
  rw [candsFrom, List.mem_filterMap] at hc
  obtain ⟨p, hp, hfc⟩ := hc
  by_cases hm : (teams_match t p.2.title).1 = true
  · simp only [hm, if_true] at hfc
    cases hfc
    have := mem_enumFrom_get? pool 0 p.1 p.2 (by simpa using hp)
    simpa using this.2
  · simp only [hm, if_false] at hfc
    cases hfc

/-- The matched pairs and the two unmatched lists partition the inputs:
the A-sides with `unmatchedA` are a permutation of `listA`, and the
B-sides with `unmatchedB` are a permutation of `listB`. -/
theorem mergePairs_perm : ∀ (A : List SbEvent) (B : List PtvEvent),
    List.Perm ((mergePairs A B).1.map (fun p => p.1) ++ (mergePairs A B).2.1) A ∧
    List.Perm ((mergePairs A B).1.map (fun p => p.2.1) ++ (mergePairs A B).2.2) B := by
  intro A
  induction A with
  | nil => intro B; exact ⟨List.Perm.refl _, List.Perm.refl _⟩
  | cons sb rest ih =>
    intro B
    rw [mergePairs, findBest_eq_specBest]
    cases h : specBest sb.title B with
    | none =>
      simp only [encodeSt]
      constructor
      · exact List.Perm.trans List.perm_middle ((ih B).1.cons sb)
      · exact (ih B).2
    | some c =>
      simp only [encodeSt, Int.toNat_natCast]
      constructor
      · exact ((ih (B.eraseIdx c.2.2)).1).cons sb
      · exact List.Perm.trans (((ih (B.eraseIdx c.2.2)).2).cons c.1)
          (perm_get?_eraseIdx B c.2.2 c.1 (specBest_get? sb.title B c h)).symm

/-- C1: every reconciliation run partitions its inputs exactly:
`|merged| + |unmatchedA| = |A|` and `|merged| + |unmatchedB| = |B|`, and
there is a list of matched pairs whose `mkMerged` image is `merged`, whose
A-sides together with `unmatchedA` are a permutation of the input `A`, and
whose B-sides together with `unmatchedB` are a permutation of the input
`B` — so every input record lands in exactly one output partition and no
B record is consumed by two different A records. -/
theorem merge_events_partition (A : List SbEvent) (B : List PtvEvent) :
    (merge_events A B).1.length + (merge_events A B).2.1.length = A.length ∧
    (merge_events A B).1.length + (merge_events A B).2.2.length = B.length ∧
    ∃ ps : List (SbEvent × PtvEvent × ℚ),
      (merge_events A B).1 = ps.map (fun p => mkMerged p.1 p.2.1 p.2.2) ∧
      List.Perm (ps.map (fun p => p.1) ++ (merge_events A B).2.1) A ∧
      List.Perm (ps.map (fun p => p.2.1) ++ (merge_events A B).2.2) B := by
  obtain ⟨hA, hB⟩ := mergePairs_perm A B
  have hme := merge_events_eq_mergePairs A B
  have h1 : (merge_events A B).1 = (mergePairs A B).1.map (fun p => mkMerged p.1 p.2.1 p.2.2) := by
    rw [hme]
  have h2 : (merge_events A B).2.1 = (mergePairs A B).2.1 := by rw [hme]
  have h3 : (merge_events A B).2.2 = (mergePairs A B).2.2 := by rw [hme]
  refine ⟨?_, ?_, (mergePairs A B).1, h1, ?_, ?_⟩
  · have := hA.length_eq
    simp only [List.length_append, List.length_map] at this
    rw [h1, h2, List.length_map]
    exact this
  · have := hB.length_eq
    simp only [List.length_append, List.length_map] at this
    rw [h1, h3, List.length_map]
    exact this
  · rw [h2]; exact hA
  · rw [h3]; exact hB

/-- C1 witness: a concrete two-against-two run. -/
theorem merge_events_partition_witness :
    ((merge_events [⟨"a vs b".toList, none, none, none, none, none⟩]
        [⟨"b vs a".toList, none, none, none, none, none, none, none⟩]).1.length +
      (merge_events [⟨"a vs b".toList, none, none, none, none, none⟩]
        [⟨"b vs a".toList, none, none, none, none, none, none, none⟩]).2.1.length = 1) ∧
    ((merge_events [⟨"a vs b".toList, none, none, none, none, none⟩]
        [⟨"b vs a".toList, none, none, none, none, none, none, none⟩]).1.length +
      (merge_events [⟨"a vs b".toList, none, none, none, none, none⟩]
        [⟨"b vs a".toList, none, none, none, none, none, none, none⟩]).2.2.length = 1) :=
  ⟨(merge_events_partition _ _).1, (merge_events_partition _ _).2.1⟩

/-!
## Window-containment and substring correctness of `findLongestMatch` (C9)
-/

/-- A candidate block for windows bounded by `bound` (for `a`) and `bhi`
(for `b`): in-window on both sides and a genuine common substring. -/
def BestOK (a b : Str) (alo blo bhi bound : ℕ) : ℕ × ℕ × ℕ → Prop
  | (i, j, k) => alo ≤ i ∧ i + k ≤ bound ∧ blo ≤ j ∧ j + k ≤ bhi ∧
      ∀ off, off < k → a.getD (i + off) 'a' = b.getD (j + off) 'a'

/-- The invariant of one `j2len` row after `n` processed rows: a nonzero
entry at `j` is an in-window chain of length at most `n` ending at
`b`-position `j` and `a`-position `alo + n - 1`. -/
def RowOK (a b : Str) (alo blo bhi n : ℕ) (row : ℕ → ℕ) : Prop :=
  ∀ j, row j ≠ 0 → blo ≤ j ∧ j < bhi ∧ row j ≤ n ∧ row j + blo ≤ j + 1 ∧
    ∀ off, off < row j → a.getD (alo + n - 1 - off) 'a' = b.getD (j - off) 'a'

/-- Positions reported by `positionsFrom` hold the sought character. -/
theorem positionsFrom_getD (c : Char) : ∀ (s : Str) (n j : ℕ),
    j ∈ positionsFrom c n s → n ≤ j ∧ s.getD (j - n) 'a' = c := by
  intro s
  induction s with
  | nil => intro n j h; cases h
  | cons d ds ih =>
    intro n j h
    rw [positionsFrom] at h
    by_cases hd : d = c
    · rw [if_pos hd] at h
      rcases List.mem_cons.mp h with h1 | h1
      · subst h1
        exact ⟨le_refl _, by simpa using hd⟩
      · obtain ⟨hn, hg⟩ := ih (n + 1) j h1
        refine ⟨le_trans (Nat.le_succ n) hn, ?_⟩
        have hj : j - n = (j - (n + 1)) + 1 := by omega
        rw [hj]
        simpa using hg
    · rw [if_neg hd] at h
      obtain ⟨hn, hg⟩ := ih (n + 1) j h
      refine ⟨le_trans (Nat.le_succ n) hn, ?_⟩
      have hj : j - n = (j - (n + 1)) + 1 := by omega
      rw [hj]
      simpa using hg

/-- Positions reported by `b2j` hold the sought character. -/
theorem b2j_getD (b : Str) (c : Char) (j : ℕ) (h : j ∈ b2j b c) :
    b.getD j 'a' = c := by
  rw [b2j] at h
  by_cases hp : bPopular b c = true
  · rw [if_pos hp] at h
    cases h
  · rw [if_neg hp] at h
    simpa using (positionsFrom_getD c b 0 j h).2

/-- A candidate block stays valid when the `a`-window bound grows. -/
theorem BestOK_mono (a b : Str) (alo blo bhi bound bound2 : ℕ)
    (hb : bound ≤ bound2) :
    ∀ st, BestOK a b alo blo bhi bound st → BestOK a b alo blo bhi bound2 st := by
  intro ⟨i, j, k⟩ h
  exact ⟨h.1, le_trans h.2.1 hb, h.2.2.1, h.2.2.2.1, h.2.2.2.2⟩

/-- One `flmInner` step preserves the row and best invariants while
processing row `alo + n`. -/
theorem flmInner_step_ok (a b : Str) (alo blo bhi n : ℕ) (old : ℕ → ℕ)
    (hold : RowOK a b alo blo bhi n old) (j : ℕ)
    (hj : blo ≤ j ∧ j < bhi ∧ b.getD j 'a' = a.getD (alo + n) 'a')
    (row : ℕ → ℕ) (best : ℕ × ℕ × ℕ)
    (hrow : RowOK a b alo blo bhi (n + 1) row)
    (hbest : BestOK a b alo blo bhi (alo + n + 1) best) :
    RowOK a b alo blo bhi (n + 1) (flmInner old (alo + n) (row, best) j).1 ∧
    BestOK a b alo blo bhi (alo + n + 1) (flmInner old (alo + n) (row, best) j).2 := by
  obtain ⟨hjlo, hjhi, hjc⟩ := hj
  -- facts about the freshly computed chain length
  have hk : ((if j = 0 then 0 else old (j - 1)) + 1) ≤ n + 1 ∧
      ((if j = 0 then 0 else old (j - 1)) + 1) + blo ≤ j + 1 ∧
      ∀ off, off < (if j = 0 then 0 else old (j - 1)) + 1 →
        a.getD (alo + n - off) 'a' = b.getD (j - off) 'a' := by
    by_cases hj0 : j = 0
    · rw [if_pos hj0]
      refine ⟨by omega, by omega, ?_⟩
      intro off hoff
      have : off = 0 := by omega
      subst this
      subst hj0
      simpa using hjc.symm
    · rw [if_neg hj0]
      by_cases hm0 : old (j - 1) = 0
      · rw [hm0]
        refine ⟨by omega, by omega, ?_⟩
        intro off hoff
        have : off = 0 := by omega
        subst this
        simpa using hjc.symm
      · obtain ⟨h1, h2, h3, h4, h5⟩ := hold (j - 1) hm0
        refine ⟨by omega, by omega, ?_⟩
        intro off hoff
        cases off with
        | zero => simpa using hjc.symm
        | succ o =>
          have ho : o < old (j - 1) := by omega
          have ha : alo + n - (o + 1) = alo + n - 1 - o := by omega
          have hb2 : j - (o + 1) = j - 1 - o := by omega
          rw [ha, hb2]
          exact h5 o ho
  obtain ⟨hk1, hk2, hk3⟩ := hk
  have heval : flmInner old (alo + n) (row, best) j =
      ((fun x => if x = j then (if j = 0 then 0 else old (j - 1)) + 1 else row x),
       if best.2.2 < (if j = 0 then 0 else old (j - 1)) + 1
        then (alo + n + 1 - ((if j = 0 then 0 else old (j - 1)) + 1),
              j + 1 - ((if j = 0 then 0 else old (j - 1)) + 1),
              (if j = 0 then 0 else old (j - 1)) + 1)
        else best) := by
    rw [flmInner]
    split_ifs <;> rfl
  rw [heval]
  constructor
  · -- the updated row
    intro x hx
    by_cases hxj : x = j
    · subst hxj
      simp only [if_pos rfl] at hx ⊢
      refine ⟨hjlo, hjhi, hk1, hk2, ?_⟩
      intro off hoff
      have hidx : alo + (n + 1) - 1 - off = alo + n - off := by omega
      rw [hidx]
      exact hk3 off hoff
    · simp only [if_neg hxj] at hx ⊢
      exact hrow x hx
  · -- the updated best
    by_cases hbk : best.2.2 < (if j = 0 then 0 else old (j - 1)) + 1
    · rw [if_pos hbk]
      refine ⟨by omega, by omega, by omega, by omega, ?_⟩
      intro off hoff
      have hoff2 : (if j = 0 then 0 else old (j - 1)) + 1 - 1 - off <
          (if j = 0 then 0 else old (j - 1)) + 1 := by omega
      have hia : alo + n + 1 - ((if j = 0 then 0 else old (j - 1)) + 1) + off =
          alo + n - ((if j = 0 then 0 else old (j - 1)) + 1 - 1 - off) := by omega
      have hib : j + 1 - ((if j = 0 then 0 else old (j - 1)) + 1) + off =
          j - ((if j = 0 then 0 else old (j - 1)) + 1 - 1 - off) := by omega
      rw [hia, hib]
      exact hk3 _ hoff2
    · rw [if_neg hbk]
      exact hbest

/-- The inner fold of `flmRow` preserves the row and best invariants. -/
theorem flmInner_fold_ok (a b : Str) (alo blo bhi n : ℕ) (old : ℕ → ℕ)
    (hold : RowOK a b alo blo bhi n old) :
    ∀ (js : List ℕ),
      (∀ j ∈ js, blo ≤ j ∧ j < bhi ∧ b.getD j 'a' = a.getD (alo + n) 'a') →
      ∀ (row : ℕ → ℕ) (best : ℕ × ℕ × ℕ),
        RowOK a b alo blo bhi (n + 1) row →
        BestOK a b alo blo bhi (alo + n + 1) best →
        RowOK a b alo blo bhi (n + 1)
          (js.foldl (flmInner old (alo + n)) (row, best)).1 ∧
        BestOK a b alo blo bhi (alo + n + 1)
          (js.foldl (flmInner old (alo + n)) (row, best)).2 := by
  intro js
  induction js with
  | nil => intro _ row best hrow hbest; exact ⟨hrow, hbest⟩
  | cons j rest ih =>
    intro hjs row best hrow hbest
    rw [List.foldl_cons]
    have hstep := flmInner_step_ok a b alo blo bhi n old hold j
      (hjs j (List.mem_cons_self _ _)) row best hrow hbest
    have heq : flmInner old (alo + n) (row, best) j =
        ((flmInner old (alo + n) (row, best) j).1,
         (flmInner old (alo + n) (row, best) j).2) := rfl
    rw [heq]
    exact ih (fun x hx => hjs x (List.mem_cons_of_mem _ hx)) _ _ hstep.1 hstep.2

/-- The outer fold of `flmCore` establishes the row and best invariants. -/
theorem flmCore_fold_ok (a b : Str) (alo blo bhi : ℕ) (hblo : blo ≤ bhi) :
    ∀ n : ℕ,
      RowOK a b alo blo bhi n
        (((List.range' alo n).foldl (flmRow a b blo bhi)
          ((fun _ => 0), (alo, blo, 0))).1) ∧
      BestOK a b alo blo bhi (alo + n)
        (((List.range' alo n).foldl (flmRow a b blo bhi)
          ((fun _ => 0), (alo, blo, 0))).2) := by
  intro n
  induction n with
  | zero =>
    constructor
    · intro j hj; exact absurd rfl hj
    · exact ⟨le_refl _, by omega, le_refl _, by omega, fun off hoff => by omega⟩
  | succ m ih =>
    have hrange : List.range' alo (m + 1) = List.range' alo m ++ [alo + m] := by
      have h0 := List.range'_append_1 alo m 1
      rw [Nat.add_comm 1 m] at h0
      simpa using h0.symm
    rw [hrange, List.foldl_append, List.foldl_cons, List.foldl_nil]
    set st := (List.range' alo m).foldl (flmRow a b blo bhi) ((fun _ => 0), (alo, blo, 0)) with hst
    have hjs : ∀ j ∈ (b2j b (a.getD (alo + m) 'a')).filter
        (fun j => decide (blo ≤ j) && decide (j < bhi)),
        blo ≤ j ∧ j < bhi ∧ b.getD j 'a' = a.getD (alo + m) 'a' := by
      intro j hj
      rw [List.mem_filter] at hj
      obtain ⟨hmem, hcond⟩ := hj
      rw [Bool.and_eq_true, decide_eq_true_eq, decide_eq_true_eq] at hcond
      exact ⟨hcond.1, hcond.2, b2j_getD b _ j hmem⟩
    have hrow0 : RowOK a b alo blo bhi (m + 1) (fun _ => 0) := by
      intro j hj; exact absurd rfl hj
    have hbest0 : BestOK a b alo blo bhi (alo + m + 1) st.2 :=
      BestOK_mono a b alo blo bhi (alo + m) (alo + m + 1) (by omega) st.2 ih.2
    have hfold := flmInner_fold_ok a b alo blo bhi m st.1 ih.1 _ hjs
      (fun _ => 0) st.2 hrow0 hbest0
    rw [flmRow]
    constructor
    · exact hfold.1
    · exact hfold.2

/-- The DP sweep returns an in-window common block. -/
theorem flmCore_ok (a b : Str) (alo ahi blo bhi : ℕ) (ha : alo ≤ ahi) (hb : blo ≤ bhi) :
    BestOK a b alo blo bhi ahi (flmCore a b alo ahi blo bhi) := by
  have h := (flmCore_fold_ok a b alo blo bhi hb (ahi - alo)).2
  rw [flmCore]
  have he : alo + (ahi - alo) = ahi := by omega
  rw [he] at h
  exact h

/-- The leftward extension loop preserves block validity. -/
theorem extLeftGo_ok (a b : Str) (alo blo bhi ahi : ℕ) :
    ∀ (fuel : ℕ) (st : ℕ × ℕ × ℕ), BestOK a b alo blo bhi ahi st →
      BestOK a b alo blo bhi ahi (extLeftGo a b alo blo fuel st) := by
  intro fuel
  induction fuel with
  | zero => intro st h; exact h
  | succ f ih =>
    intro ⟨i, j, k⟩ h
    rw [extLeftGo]
    by_cases hc : alo < i ∧ blo < j ∧ a.getD (i - 1) 'a' = b.getD (j - 1) 'a'
    · rw [if_pos hc]
      apply ih
      obtain ⟨h1, h2, h3, h4, h5⟩ := h
      refine ⟨by omega, by omega, by omega, by omega, ?_⟩
      intro off hoff
      cases off with
      | zero => simpa using hc.2.2
      | succ o =>
        have hia : i - 1 + (o + 1) = i + o := by omega
        have hib : j - 1 + (o + 1) = j + o := by omega
        rw [hia, hib]
        exact h5 o (by omega)
    · rw [if_neg hc]
      exact h

/-- The rightward extension loop preserves block validity. -/
theorem extRightGo_ok (a b : Str) (alo blo bhi ahi : ℕ) :
    ∀ (fuel : ℕ) (st : ℕ × ℕ × ℕ), BestOK a b alo blo bhi ahi st →
      BestOK a b alo blo bhi ahi (extRightGo a b ahi bhi fuel st) := by
  intro fuel
  induction fuel with
  | zero => intro st h; exact h
  | succ f ih =>
    intro ⟨i, j, k⟩ h
    rw [extRightGo]
    by_cases hc : i + k < ahi ∧ j + k < bhi ∧ a.getD (i + k) 'a' = b.getD (j + k) 'a'
    · rw [if_pos hc]
      apply ih
      obtain ⟨h1, h2, h3, h4, h5⟩ := h
      refine ⟨h1, by omega, h3, by omega, ?_⟩
      intro off hoff
      by_cases ho : off < k
      · exact h5 off ho
      · have : off = k := by omega
        subst this
        exact hc.2.2
    · rw [if_neg hc]
      exact h

/-- `findLongestMatch` returns an in-window common block. -/
theorem findLongestMatch_ok (a b : Str) (alo ahi blo bhi : ℕ)
    (ha : alo ≤ ahi) (hb : blo ≤ bhi) :
    BestOK a b alo blo bhi ahi (findLongestMatch a b alo ahi blo bhi) := by
  rw [findLongestMatch]
  exact extRightGo_ok a b alo blo bhi ahi bhi _
    (extLeftGo_ok a b alo blo bhi ahi ahi _ (flmCore_ok a b alo ahi blo bhi ha hb))

/-- The total matched size is bounded by both window sizes. -/
theorem matchTotal_le (a b : Str) : ∀ (fuel alo ahi blo bhi : ℕ), alo ≤ ahi → blo ≤ bhi →
    matchTotal a b fuel alo ahi blo bhi ≤ ahi - alo ∧
    matchTotal a b fuel alo ahi blo bhi ≤ bhi - blo := by
  intro fuel
  induction fuel with
  | zero =>
    intro alo ahi blo bhi _ _
    rw [matchTotal]
    omega
  | succ f ih =>
    intro alo ahi blo bhi ha hb
    have hok := findLongestMatch_ok a b alo ahi blo bhi ha hb
    rcases hfl : findLongestMatch a b alo ahi blo bhi with ⟨i, j, k⟩
    rw [hfl] at hok
    obtain ⟨h1, h2, h3, h4, _⟩ := hok
    rw [matchTotal, hfl]
    dsimp only
    by_cases hk : k = 0
    · rw [if_pos hk]
      omega
    · rw [if_neg hk]
      have hL := ih alo i blo j h1 h3
      have hR := ih (i + k) ahi (j + k) bhi h2 h4
      omega

/-- A total matched size filling both windows forces the two window
contents to agree pointwise. -/
theorem matchTotal_full (a b : Str) : ∀ (fuel alo ahi blo bhi : ℕ), alo ≤ ahi → blo ≤ bhi →
    matchTotal a b fuel alo ahi blo bhi = ahi - alo →
    matchTotal a b fuel alo ahi blo bhi = bhi - blo →
    ∀ off, off < ahi - alo → a.getD (alo + off) 'a' = b.getD (blo + off) 'a' := by
  intro fuel
  induction fuel with
  | zero =>
    intro alo ahi blo bhi _ _ hA _ off hoff
    rw [matchTotal] at hA
    omega
  | succ f ih =>
    intro alo ahi blo bhi ha hb hA hB off hoff
    have hok := findLongestMatch_ok a b alo ahi blo bhi ha hb
    rcases hfl : findLongestMatch a b alo ahi blo bhi with ⟨i, j, k⟩
    rw [hfl] at hok
    obtain ⟨h1, h2, h3, h4, h5⟩ := hok
    rw [matchTotal, hfl] at hA hB
    dsimp only at hA hB
    by_cases hk : k = 0
    · rw [if_pos hk] at hA
      omega
    · rw [if_neg hk] at hA hB
      have hL := matchTotal_le a b f alo i blo j h1 h3
      have hR := matchTotal_le a b f (i + k) ahi (j + k) bhi h2 h4
      have hLa : matchTotal a b f alo i blo j = i - alo := by omega
      have hLb : matchTotal a b f alo i blo j = j - blo := by omega
      have hRa : matchTotal a b f (i + k) ahi (j + k) bhi = ahi - (i + k) := by omega
      have hRb : matchTotal a b f (i + k) ahi (j + k) bhi = bhi - (j + k) := by omega
      have hij : i - alo = j - blo := by omega
      by_cases ho1 : off < i - alo
      · exact ih alo i blo j h1 h3 hLa hLb off ho1
      · by_cases ho2 : off < i - alo + k
        · have hia : alo + off = i + (off - (i - alo)) := by omega
          have hib : blo + off = j + (off - (i - alo)) := by omega
          rw [hia, hib]
          exact h5 _ (by omega)
        · have hia : alo + off = (i + k) + (off - (i - alo) - k) := by omega
          have hib : blo + off = (j + k) + (off - (i - alo) - k) := by omega
          rw [hia, hib]
          exact ih (i + k) ahi (j + k) bhi h2 h4 hRa hRb _ (by omega)

/-- The similarity ratio is at most one. -/
theorem ratioQ_le_one (a b : Str) : ratioQ a b ≤ 1 := by
  rw [ratioQ]
  by_cases hT : a.length + b.length = 0
  · rw [if_pos hT]
  · rw [if_neg hT]
    have hm := matchTotal_le a b (a.length + b.length + 1) 0 a.length 0 b.length
      (Nat.zero_le _) (Nat.zero_le _)
    rw [div_le_one (by positivity)]
    have : 2 * matchTotal a b (a.length + b.length + 1) 0 a.length 0 b.length ≤
        a.length + b.length := by omega
    exact_mod_cast this

/-- A ratio of exactly one forces the two strings to be identical. -/
theorem ratioQ_eq_one_identical (a b : Str) (h : ratioQ a b = 1) : a = b := by
  rw [ratioQ] at h
  by_cases hT : a.length + b.length = 0
  · have ha : a = [] := List.length_eq_zero.mp (by omega)
    have hb : b = [] := List.length_eq_zero.mp (by omega)
    rw [ha, hb]
  · rw [if_neg hT] at h
    have hTQ : ((a.length + b.length : ℕ) : ℚ) ≠ 0 := by
      exact_mod_cast hT
    rw [div_eq_one_iff_eq hTQ] at h
    have h2 : 2 * matchTotal a b (a.length + b.length + 1) 0 a.length 0 b.length =
        a.length + b.length := by exact_mod_cast h
    have hm := matchTotal_le a b (a.length + b.length + 1) 0 a.length 0 b.length
      (Nat.zero_le _) (Nat.zero_le _)
    have hma : matchTotal a b (a.length + b.length + 1) 0 a.length 0 b.length
        = a.length - 0 := by omega
    have hmb : matchTotal a b (a.length + b.length + 1) 0 a.length 0 b.length
        = b.length - 0 := by omega
    have hlen : a.length = b.length := by omega
    have hfull := matchTotal_full a b (a.length + b.length + 1) 0 a.length 0 b.length
      (Nat.zero_le _) (Nat.zero_le _) hma hmb
    apply List.ext_getElem hlen
    intro n hn1 hn2
    have := hfull n (by omega)
    simpa [List.getD_eq_getElem?_getD, List.getElem?_eq_getElem, hn1, hn2] using this

/-- C9 (amended): the pairwise string-similarity ratio of scoring step 5
is bounded in [0, 1] and equals 1.0 only when the two strings are
identical.  (The claimed symmetry fails; see the counterexample.) -/
theorem ratioQ_bounded_and_one_only_identical (a b : Str) :
    0 ≤ ratioQ a b ∧ ratioQ a b ≤ 1 ∧ (ratioQ a b = 1 → a = b) :=
  ⟨ratioQ_nonneg a b, ratioQ_le_one a b, ratioQ_eq_one_identical a b⟩

/-- C9 counterexample: the ratio is not symmetric —
`ratio("ab", "bacb") = 2/3` but `ratio("bacb", "ab") = 1/3` (the
`SequenceMatcher` recursion finds two matched characters one way and only
one the other way). -/
theorem ratioQ_not_symmetric :
    ratioQ ("ab".toList) ("bacb".toList) ≠ ratioQ ("bacb".toList) ("ab".toList) := by
  rw [ratioQ_eq_mkRat _ _ (by decide), ratioQ_eq_mkRat _ _ (by decide)]
  decide

/-- C9 witness: the amended bounds at a concrete pair of strings. -/
theorem ratioQ_bounded_and_one_only_identical_witness :
    0 ≤ ratioQ ("abc".toList) ("abd".toList) ∧
    ratioQ ("abc".toList) ("abd".toList) ≤ 1 ∧
    (ratioQ ("abc".toList) ("abd".toList) = 1 → "abc".toList = "abd".toList) :=
  ratioQ_bounded_and_one_only_identical ("abc".toList) ("abd".toList)
